import Mathlib

/-!
A verification development for the snmp_exporter config generator
(`generator/main.go` and `generator/config-generator/generate.go`).

Go strings are modelled as `List Char` (UTF-8 byte order on ASCII strings
coincides with codepoint order, so Go's byte-wise string comparison is the
lexicographic order on the character list).  Go slices become Lean lists,
Go maps over strings become association-style lookup functions, and the
`log.Fatalf` aborts become `Except.error` results.
-/

namespace SnmpGen

/-- Go strings, modelled as their character lists. -/
abbrev Str := List Char

/-- Convert a Lean string literal to the `Str` model. -/
def str (s : String) : Str := s.data

/-! ## Lexicographic string order (Go `sort.Strings` comparison) -/

/-- Byte-wise (here: character-wise) strict lexicographic comparison,
the order used by Go's `sort.Strings`. -/
def lexLt : Str → Str → Bool
  | [], [] => false
  | [], _ :: _ => true
  | _ :: _, [] => false
  | a :: as, b :: bs => a < b || (a = b && lexLt as bs)

/-- Reflexive lexicographic comparison: `a ≤ b` iff `¬ b < a`. -/
def lexLe (a b : Str) : Bool := !(lexLt b a)

/-- The `Prop` form of `lexLe`, used as the sorting relation. -/
def leP (a b : Str) : Prop := lexLe a b = true

instance : DecidableRel leP := fun a b => by unfold leP; infer_instance

theorem lexLt_irrefl (a : Str) : lexLt a a = false := by
  induction a with
  | nil => rfl
  | cons c cs ih => simp [lexLt, ih]

theorem lexLt_asymm (a b : Str) (hab : lexLt a b = true) (hba : lexLt b a = true) : False := by
  induction a generalizing b with
  | nil =>
    cases b with
    | nil => simp [lexLt] at hab
    | cons y ys => simp [lexLt] at hba
  | cons x xs ih =>
    cases b with
    | nil => simp [lexLt] at hab
    | cons y ys =>
      simp only [lexLt, Bool.or_eq_true, Bool.and_eq_true, decide_eq_true_eq] at hab hba
      rcases hab with h1 | ⟨he1, h1⟩
      · rcases hba with h2 | ⟨he2, h2⟩
        · exact absurd h2 (not_lt_of_gt h1)
        · exact absurd h1 (by simp [he2, lt_irrefl])
      · rcases hba with h2 | ⟨he2, h2⟩
        · exact absurd h2 (by simp [he1, lt_irrefl])
        · exact ih ys h1 h2

theorem lexLt_trichotomy (a b : Str) :
    lexLt a b = true ∨ a = b ∨ lexLt b a = true := by
  induction a generalizing b with
  | nil =>
    cases b with
    | nil => exact Or.inr (Or.inl rfl)
    | cons y ys => exact Or.inl (by simp [lexLt])
  | cons x xs ih =>
    cases b with
    | nil => exact Or.inr (Or.inr (by simp [lexLt]))
    | cons y ys =>
      rcases lt_trichotomy x y with hxy | hxy | hxy
      · exact Or.inl (by simp [lexLt, hxy])
      · subst hxy
        rcases ih ys with h | h | h
        · exact Or.inl (by simp [lexLt, h])
        · exact Or.inr (Or.inl (by rw [h]))
        · exact Or.inr (Or.inr (by simp [lexLt, h]))
      · exact Or.inr (Or.inr (by simp [lexLt, hxy]))

theorem lexLt_trans (a b c : Str) (hab : lexLt a b = true) (hbc : lexLt b c = true) :
    lexLt a c = true := by
  induction a generalizing b c with
  | nil =>
    cases b with
    | nil => simp [lexLt] at hab
    | cons y ys =>
      cases c with
      | nil => simp [lexLt] at hbc
      | cons z zs => simp [lexLt]
  | cons x xs ih =>
    cases b with
    | nil => simp [lexLt] at hab
    | cons y ys =>
      cases c with
      | nil => simp [lexLt] at hbc
      | cons z zs =>
        simp only [lexLt, Bool.or_eq_true, Bool.and_eq_true, decide_eq_true_eq] at hab hbc ⊢
        rcases hab with h1 | ⟨he1, h1⟩
        · rcases hbc with h2 | ⟨he2, h2⟩
          · exact Or.inl (lt_trans h1 h2)
          · exact Or.inl (he2 ▸ h1)
        · rcases hbc with h2 | ⟨he2, h2⟩
          · exact Or.inl (he1 ▸ h2)
          · exact Or.inr ⟨he1.trans he2, ih ys zs h1 h2⟩

theorem leP_total (a b : Str) : leP a b ∨ leP b a := by
  unfold leP lexLe
  by_cases h : lexLt b a = true
  · right
    by_cases h2 : lexLt a b = true
    · exact absurd h (by intro hh; exact lexLt_asymm a b h2 hh)
    · simp [Bool.not_eq_true] at h2; simp [h2]
  · left; simp [Bool.not_eq_true] at h; simp [h]

theorem leP_trans (a b c : Str) (hab : leP a b) (hbc : leP b c) : leP a c := by
  unfold leP lexLe at hab hbc ⊢
  simp only [Bool.not_eq_true'] at hab hbc ⊢
  by_contra h
  simp only [Bool.not_eq_false] at h
  rcases lexLt_trichotomy b c with h1 | h1 | h1
  · have := lexLt_trans c a b h (by
      rcases lexLt_trichotomy a b with h2 | h2 | h2
      · exact h2
      · subst h2; rw [h] at hbc; simp at hbc
      · rw [h2] at hab; simp at hab)
    rw [this] at hbc; simp at hbc
  · subst h1; rw [h] at hab; simp at hab
  · rw [h1] at hbc; simp at hbc

theorem leP_antisymm (a b : Str) (hab : leP a b) (hba : leP b a) : a = b := by
  unfold leP lexLe at hab hba
  simp only [Bool.not_eq_true'] at hab hba
  rcases lexLt_trichotomy a b with h | h | h
  · rw [h] at hba; exact absurd hba (by simp)
  · exact h
  · rw [h] at hab; exact absurd hab (by simp)

instance : IsTotal Str leP := ⟨leP_total⟩

instance : IsTrans Str leP := ⟨leP_trans⟩

instance : IsAntisymm Str leP := ⟨leP_antisymm⟩

theorem leP_refl (a : Str) : leP a a := by
  unfold leP lexLe
  simp [lexLt_irrefl]

/-- A string prefix sorts no later than the whole string. -/
theorem leP_of_prefix (a b : Str) (h : a <+: b) : leP a b := by
  unfold leP lexLe
  obtain ⟨t, rfl⟩ := h
  simp only [Bool.not_eq_true']
  induction a with
  | nil => cases t <;> rfl
  | cons x xs ih => simp [lexLt, ih]

/-! ## `minimizeOids` (generator/main.go:176-187) -/

/-- `sort.Strings`: sort in byte-wise lexicographic order.  Modelled with
insertion sort over `leP`; since `leP` is total, transitive and
antisymmetric, the sorted list is unique, so this agrees with any
correct sorting routine. -/
def sortStrings (l : List Str) : List Str := List.insertionSort leP l

/-- The dotted-prefix test used by `minimizeOids`:
`strings.HasPrefix(b+".", a+".")`, i.e. `a` equals `b` or `a` is a
dotted-segment prefix of `b`. -/
def dottedPrefix (a b : Str) : Bool := List.isPrefixOf (a ++ ['.']) (b ++ ['.'])

/-- The scan inside `minimizeOids`: keep an OID iff the previous kept
OID (with `"."` appended) is not a prefix of it; `prevOid == ""` only on
the first iteration.  This is the loop of generator/main.go:178-185. -/
def minimizeScan : List Str → Str → List Str
  | [], _ => []
  | oid :: rest, prevOid =>
    if (!(List.isPrefixOf prevOid (oid ++ ['.']))) || prevOid == [] then
      oid :: minimizeScan rest (oid ++ ['.'])
    else
      minimizeScan rest prevOid

/-- `minimizeOids` (generator/main.go:176-187): sort, then keep only
OIDs not covered by the previously kept OID. -/
def minimizeOids (oids : List Str) : List Str :=
  minimizeScan (sortStrings oids) []

/-! ## `sanitizeLabelName` (generator/main.go:291-297) -/

/-- A character the regexp `[^a-zA-Z0-9_]` does NOT match, i.e. one that
`sanitizeLabelName` keeps. -/
def validLabelChar (c : Char) : Bool :=
  ('a' ≤ c && c ≤ 'z') || ('A' ≤ c && c ≤ 'Z') || ('0' ≤ c && c ≤ '9') || c = '_'

/-- `sanitizeLabelName`: replace every character outside `[a-zA-Z0-9_]`
with `_` (generator/main.go:295-297). -/
def sanitizeLabelName (name : Str) : Str :=
  name.map (fun c => if validLabelChar c then c else '_')

/-! ## Valid dotted-decimal OID strings -/

mutual

/-- A valid dotted-decimal OID: one or more digits, then either the end
of the string or a dot followed by another such segment. -/
def validSeg : Str → Bool
  | [] => false
  | c :: cs => c.isDigit && validRest cs

/-- After at least one digit of a segment: more digits, a dot starting a
new segment, or the end. -/
def validRest : Str → Bool
  | [] => true
  | c :: cs => if c = '.' then validSeg cs else c.isDigit && validRest cs

end

/-- A valid dotted-decimal OID string (dot-separated nonempty decimal
segments, no leading or trailing dot). -/
def isValidOid (s : Str) : Bool := validSeg s

/-- Every character of the string is a dot or a decimal digit. -/
def oidChars (s : Str) : Bool := s.all (fun c => c = '.' || c.isDigit)

mutual

theorem oidChars_of_validSeg : ∀ s : Str, validSeg s = true → oidChars s = true
  | [], h => by simp [validSeg] at h
  | c :: cs, h => by
    simp only [validSeg, Bool.and_eq_true] at h
    have := oidChars_of_validRest cs h.2
    simp only [oidChars, List.all_cons, Bool.and_eq_true, Bool.or_eq_true] at this ⊢
    exact ⟨Or.inr h.1, this⟩

theorem oidChars_of_validRest : ∀ s : Str, validRest s = true → oidChars s = true
  | [], _ => by simp [oidChars]
  | c :: cs, h => by
    simp only [validRest] at h
    by_cases hc : c = '.'
    · rw [if_pos hc] at h
      have := oidChars_of_validSeg cs h
      simp only [oidChars, List.all_cons, Bool.and_eq_true, Bool.or_eq_true] at this ⊢
      exact ⟨Or.inl (by simp [hc]), this⟩
    · rw [if_neg hc] at h
      simp only [Bool.and_eq_true] at h
      have := oidChars_of_validRest cs h.2
      simp only [oidChars, List.all_cons, Bool.and_eq_true, Bool.or_eq_true] at this ⊢
      exact ⟨Or.inr h.1, this⟩

end

theorem oidChars_of_isValidOid (s : Str) (h : isValidOid s = true) : oidChars s = true :=
  oidChars_of_validSeg s h

/-! ## Properties of `minimizeOids` -/

theorem lexLt_nil_right (b : Str) : lexLt b [] = false := by
  cases b <;> rfl

theorem leP_cons (x : Char) (a b : Str) (h : leP a b) : leP (x :: a) (x :: b) := by
  unfold leP lexLe at h ⊢
  simp only [Bool.not_eq_true'] at h ⊢
  simp [lexLt, lt_irrefl, h]

theorem dottedPrefix_refl (a : Str) : dottedPrefix a a = true := by
  unfold dottedPrefix
  exact (List.isPrefixOf_iff_prefix).mpr (List.prefix_refl _)

theorem dottedPrefix_iff (a b : Str) :
    dottedPrefix a b = true ↔ (a ++ ['.']) <+: (b ++ ['.']) := by
  unfold dottedPrefix
  exact List.isPrefixOf_iff_prefix

/-- A dotted prefix sorts no later than what it covers. -/
theorem leP_of_dottedPrefix (a b : Str) (h : dottedPrefix a b = true) : leP a b := by
  rw [dottedPrefix_iff] at h
  induction a generalizing b with
  | nil =>
    unfold leP lexLe
    simp [lexLt_nil_right]
  | cons x xs ih =>
    cases b with
    | nil =>
      rw [List.cons_append, List.nil_append, List.cons_prefix_cons] at h
      have := h.2.length_le
      simp at this
    | cons y ys =>
      rw [List.cons_append, List.cons_append, List.cons_prefix_cons] at h
      obtain ⟨rfl, h2⟩ := h
      exact leP_cons x xs ys (ih ys h2)

/-- A digit is strictly greater than the dot character. -/
theorem dot_lt_digit (c : Char) (h : c.isDigit = true) : '.' < c := by
  simp only [Char.isDigit, Bool.and_eq_true, decide_eq_true_eq] at h
  exact lt_of_lt_of_le (by decide : '.' < '0') h.1

/-- The interval lemma behind the correctness of the sorted prefix scan:
if `a` is a dotted prefix of `b` and `c` lies between them in
lexicographic order, then (provided `c` is made of digits and dots)
`a` is also a dotted prefix of `c`.  This is why lexicographic string
order suffices for `minimizeOids`. -/
theorem dottedPrefix_interval (a c b : Str) (hc : oidChars c = true)
    (hab : dottedPrefix a b = true) (hac : leP a c) (hcb : leP c b) :
    dottedPrefix a c = true := by
  rw [dottedPrefix_iff] at hab ⊢
  induction a generalizing b c with
  | nil =>
    rw [List.nil_append] at hab ⊢
    cases c with
    | nil => exact List.prefix_refl _
    | cons ch cs =>
      rw [List.cons_append]
      cases b with
      | nil =>
        exfalso
        unfold leP lexLe lexLt at hcb
        simp at hcb
      | cons d bs =>
        rw [List.cons_append, List.cons_prefix_cons] at hab
        obtain ⟨hd, _⟩ := hab
        subst hd
        have hch : ch = '.' := by
          simp only [oidChars, List.all_cons, Bool.and_eq_true, Bool.or_eq_true,
            decide_eq_true_eq] at hc
          rcases hc.1 with h | h
          · exact h
          · exfalso
            unfold leP lexLe at hcb
            simp only [Bool.not_eq_true'] at hcb
            have : lexLt ('.' :: bs) (ch :: cs) = true := by
              simp [lexLt, dot_lt_digit ch h]
            rw [this] at hcb
            exact Bool.true_eq_false.mp hcb
        subst hch
        rw [List.cons_prefix_cons]
        exact ⟨rfl, List.nil_prefix⟩
  | cons x xs ih =>
    cases b with
    | nil =>
      exfalso
      rw [List.cons_append, List.nil_append, List.cons_prefix_cons] at hab
      have := hab.2.length_le
      simp at this
    | cons y ys =>
      rw [List.cons_append, List.cons_append, List.cons_prefix_cons] at hab
      obtain ⟨rfl, hab2⟩ := hab
      cases c with
      | nil =>
        exfalso
        unfold leP lexLe lexLt at hac
        simp at hac
      | cons z cs =>
        unfold leP lexLe at hac hcb
        simp only [Bool.not_eq_true'] at hac hcb
        simp only [lexLt, Bool.or_eq_false_iff, Bool.and_eq_false_iff,
          decide_eq_true_eq, decide_eq_false_iff_not] at hac hcb
        have hzx : z = x := le_antisymm (le_of_not_lt hcb.1) (le_of_not_lt hac.1)
        subst hzx
        have hac2 : leP xs cs := by
          unfold leP lexLe
          simp only [Bool.not_eq_true']
          rcases hac.2 with h | h
          · exact absurd rfl h
          · exact h
        have hcb2 : leP cs ys := by
          unfold leP lexLe
          simp only [Bool.not_eq_true']
          rcases hcb.2 with h | h
          · exact absurd rfl h
          · exact h
        have hc2 : oidChars cs = true := by
          simp only [oidChars, List.all_cons, Bool.and_eq_true] at hc
          exact hc.2
        rw [List.cons_append, List.cons_append, List.cons_prefix_cons]
        exact ⟨rfl, ih cs ys hc2 hab2 hac2 hcb2⟩

theorem minimizeScan_cons_keep (k c : Str) (rest : List Str)
    (h : dottedPrefix k c = false) :
    minimizeScan (c :: rest) (k ++ ['.']) = c :: minimizeScan rest (c ++ ['.']) := by
  unfold dottedPrefix at h
  simp [minimizeScan, h]

theorem minimizeScan_cons_skip (k c : Str) (rest : List Str)
    (h : dottedPrefix k c = true) :
    minimizeScan (c :: rest) (k ++ ['.']) = minimizeScan rest (k ++ ['.']) := by
  unfold dottedPrefix at h
  simp [minimizeScan, h]

theorem minimizeScan_cons_nil (c : Str) (rest : List Str) :
    minimizeScan (c :: rest) [] = c :: minimizeScan rest (c ++ ['.']) := by
  simp [minimizeScan, List.isPrefixOf]

theorem minimizeScan_sublist (l : List Str) (p : Str) :
    (minimizeScan l p).Sublist l := by
  induction l generalizing p with
  | nil => exact List.Sublist.refl _
  | cons c rest ih =>
    unfold minimizeScan
    split
    · exact (ih (c ++ ['.'])).cons₂ c
    · exact (ih p).cons c

theorem minimizeScan_mem (l : List Str) (p : Str) (x : Str)
    (h : x ∈ minimizeScan l p) : x ∈ l :=
  (minimizeScan_sublist l p).subset h

/-- Nothing the scan keeps after `k` equals `k` itself. -/
theorem minimizeScan_ne (l : List Str) (k : Str)
    (hsort : List.Sorted leP l) (hk : ∀ x ∈ l, leP k x) :
    ∀ x ∈ minimizeScan l (k ++ ['.']), x ≠ k := by
  induction l generalizing k with
  | nil => intro x hx; simp [minimizeScan] at hx
  | cons c rest ih =>
    by_cases hkc : dottedPrefix k c = true
    · rw [minimizeScan_cons_skip k c rest hkc]
      exact ih k hsort.of_cons (fun x hx => hk x (List.mem_cons_of_mem c hx))
    · rw [Bool.not_eq_true] at hkc
      rw [minimizeScan_cons_keep k c rest hkc]
      intro x hx
      rcases List.mem_cons.mp hx with rfl | hx2
      · intro hxk
        subst hxk
        rw [dottedPrefix_refl] at hkc
        exact Bool.true_eq_false.mp hkc
      · intro hxk
        cases hxk
        have h1 : leP c k := List.rel_of_sorted_cons hsort k (minimizeScan_mem rest _ k hx2)
        have h2 : leP k c := hk c (List.mem_cons_self c rest)
        have hxc : k = c := leP_antisymm k c h2 h1
        rw [hxc, dottedPrefix_refl] at hkc
        exact Bool.true_eq_false.mp hkc

theorem minimizeScan_nodup (l : List Str) (k : Str)
    (hsort : List.Sorted leP l) (hk : ∀ x ∈ l, leP k x) :
    (minimizeScan l (k ++ ['.'])).Nodup := by
  induction l generalizing k with
  | nil => simp [minimizeScan]
  | cons c rest ih =>
    by_cases hkc : dottedPrefix k c = true
    · rw [minimizeScan_cons_skip k c rest hkc]
      exact ih k hsort.of_cons (fun x hx => hk x (List.mem_cons_of_mem c hx))
    · rw [Bool.not_eq_true] at hkc
      rw [minimizeScan_cons_keep k c rest hkc]
      rw [List.nodup_cons]
      constructor
      · intro hc
        exact minimizeScan_ne rest c hsort.of_cons
          (List.rel_of_sorted_cons hsort) c hc rfl
      · exact ih c hsort.of_cons (List.rel_of_sorted_cons hsort)

/-- The main invariant of the scan, for inputs made of digits and dots:
everything kept avoids the previous prefix `k`, the kept list is an
antichain, and everything in the input is covered by `k` or by a kept
element. -/
theorem minimizeScan_inv (l : List Str) (k : Str)
    (hsort : List.Sorted leP l) (hchars : ∀ x ∈ l, oidChars x = true)
    (hk : ∀ x ∈ l, leP k x) :
    (∀ x ∈ minimizeScan l (k ++ ['.']), dottedPrefix k x = false) ∧
    List.Pairwise (fun a b => dottedPrefix a b = false ∧ dottedPrefix b a = false)
      (minimizeScan l (k ++ ['.'])) ∧
    (∀ x ∈ l, dottedPrefix k x = true ∨
      ∃ y ∈ minimizeScan l (k ++ ['.']), dottedPrefix y x = true) := by
  induction l generalizing k with
  | nil => exact ⟨by simp [minimizeScan], by simp [minimizeScan], by simp⟩
  | cons c rest ih =>
    have hsort2 := hsort.of_cons
    have hcrest := List.rel_of_sorted_cons hsort
    have hchars2 : ∀ x ∈ rest, oidChars x = true :=
      fun x hx => hchars x (List.mem_cons_of_mem c hx)
    by_cases hkc : dottedPrefix k c = true
    · rw [minimizeScan_cons_skip k c rest hkc]
      obtain ⟨p1, p2, p3⟩ := ih k hsort2 hchars2
        (fun x hx => hk x (List.mem_cons_of_mem c hx))
      refine ⟨p1, p2, ?_⟩
      intro x hx
      rcases List.mem_cons.mp hx with rfl | hx2
      · exact Or.inl hkc
      · exact p3 x hx2
    · rw [Bool.not_eq_true] at hkc
      rw [minimizeScan_cons_keep k c rest hkc]
      obtain ⟨p1, p2, p3⟩ := ih c hsort2 hchars2 hcrest
      have hne_dp : ∀ x ∈ minimizeScan rest (c ++ ['.']), dottedPrefix x c = false := by
        intro x hx
        rw [Bool.eq_false_iff]
        intro hdp
        have h1 : leP c x := hcrest x (minimizeScan_mem rest _ x hx)
        have h2 : leP x c := leP_of_dottedPrefix x c hdp
        have hxc : x = c := leP_antisymm x c h2 h1
        subst hxc
        have := p1 x hx
        rw [dottedPrefix_refl] at this
        exact Bool.true_eq_false.mp this
      refine ⟨?_, ?_, ?_⟩
      · intro x hx
        rcases List.mem_cons.mp hx with rfl | hx2
        · exact hkc
        · rw [Bool.eq_false_iff]
          intro hdp
          have hint := dottedPrefix_interval k c x
            (hchars c (List.mem_cons_self c rest)) hdp
            (hk c (List.mem_cons_self c rest))
            (hcrest x (minimizeScan_mem rest _ x hx2))
          rw [hint] at hkc
          exact Bool.true_eq_false.mp hkc
      · rw [List.pairwise_cons]
        exact ⟨fun x hx => ⟨p1 x hx, hne_dp x hx⟩, p2⟩
      · intro x hx
        rcases List.mem_cons.mp hx with rfl | hx2
        · exact Or.inr ⟨x, List.mem_cons_self x _, dottedPrefix_refl x⟩
        · rcases p3 x hx2 with h | ⟨y, hy, hdp⟩
          · exact Or.inr ⟨c, List.mem_cons_self c _, h⟩
          · exact Or.inr ⟨y, List.mem_cons_of_mem c hy, hdp⟩

theorem sortStrings_sorted (l : List Str) : List.Sorted leP (sortStrings l) :=
  List.sorted_insertionSort leP l

theorem sortStrings_perm (l : List Str) : (sortStrings l).Perm l :=
  List.perm_insertionSort leP l

theorem minimizeOids_sorted (oids : List Str) :
    List.Sorted leP (minimizeOids oids) :=
  List.Pairwise.sublist (minimizeScan_sublist _ _) (sortStrings_sorted oids)

theorem minimizeOids_nodup (oids : List Str) : (minimizeOids oids).Nodup := by
  unfold minimizeOids
  rcases h : sortStrings oids with _ | ⟨c, rest⟩
  · simp [minimizeScan]
  · rw [minimizeScan_cons_nil]
    have hs : List.Sorted leP (c :: rest) := h ▸ sortStrings_sorted oids
    rw [List.nodup_cons]
    constructor
    · intro hc
      exact minimizeScan_ne rest c hs.of_cons (List.rel_of_sorted_cons hs) c hc rfl
    · exact minimizeScan_nodup rest c hs.of_cons (List.rel_of_sorted_cons hs)

theorem minimizeOids_perm_invariant (l1 l2 : List Str) (h : l1.Perm l2) :
    minimizeOids l1 = minimizeOids l2 := by
  unfold minimizeOids
  have : sortStrings l1 = sortStrings l2 :=
    List.eq_of_perm_of_sorted
      ((sortStrings_perm l1).trans (h.trans (sortStrings_perm l2).symm))
      (sortStrings_sorted l1) (sortStrings_sorted l2)
  rw [this]

/-- The minimized output is a dotted-prefix antichain (for inputs made
of digits and dots). -/
theorem minimizeOids_pairwise (oids : List Str)
    (hchars : ∀ x ∈ oids, oidChars x = true) :
    List.Pairwise (fun a b => dottedPrefix a b = false ∧ dottedPrefix b a = false)
      (minimizeOids oids) := by
  unfold minimizeOids
  rcases h : sortStrings oids with _ | ⟨c, rest⟩
  · simp [minimizeScan]
  · rw [minimizeScan_cons_nil]
    have hs : List.Sorted leP (c :: rest) := h ▸ sortStrings_sorted oids
    have hmem : ∀ x ∈ c :: rest, x ∈ oids := by
      intro x hx
      exact (sortStrings_perm oids).subset (h ▸ hx)
    have hchars2 : ∀ x ∈ rest, oidChars x = true :=
      fun x hx => hchars x (hmem x (List.mem_cons_of_mem c hx))
    obtain ⟨p1, p2, _⟩ := minimizeScan_inv rest c hs.of_cons hchars2
      (List.rel_of_sorted_cons hs)
    rw [List.pairwise_cons]
    refine ⟨?_, p2⟩
    intro x hx
    refine ⟨p1 x hx, ?_⟩
    rw [Bool.eq_false_iff]
    intro hdp
    have h1 : leP c x := List.rel_of_sorted_cons hs x (minimizeScan_mem rest _ x hx)
    have h2 : leP x c := leP_of_dottedPrefix x c hdp
    have hxc : x = c := leP_antisymm x c h2 h1
    subst hxc
    have := p1 x hx
    rw [dottedPrefix_refl] at this
    exact Bool.true_eq_false.mp this

/-- Coverage: every input is covered by some kept element (for inputs
made of digits and dots). -/
theorem minimizeOids_covers (oids : List Str)
    (hchars : ∀ x ∈ oids, oidChars x = true) :
    ∀ x ∈ oids, ∃ y ∈ minimizeOids oids, dottedPrefix y x = true := by
  unfold minimizeOids
  rcases h : sortStrings oids with _ | ⟨c, rest⟩
  · intro x hx
    exfalso
    have := (sortStrings_perm oids).symm.subset hx
    rw [h] at this
    exact List.not_mem_nil x this
  · rw [minimizeScan_cons_nil]
    have hs : List.Sorted leP (c :: rest) := h ▸ sortStrings_sorted oids
    have hmem : ∀ x ∈ c :: rest, x ∈ oids := by
      intro x hx
      exact (sortStrings_perm oids).subset (h ▸ hx)
    have hchars2 : ∀ x ∈ rest, oidChars x = true :=
      fun x hx => hchars x (hmem x (List.mem_cons_of_mem c hx))
    obtain ⟨_, _, p3⟩ := minimizeScan_inv rest c hs.of_cons hchars2
      (List.rel_of_sorted_cons hs)
    intro x hx
    have hx2 : x ∈ c :: rest := by
      have := (sortStrings_perm oids).symm.subset hx
      rw [h] at this
      exact this
    rcases List.mem_cons.mp hx2 with rfl | hx3
    · exact ⟨x, List.mem_cons_self x _, dottedPrefix_refl x⟩
    · rcases p3 x hx3 with hdp | ⟨y, hy, hdp⟩
      · exact ⟨c, List.mem_cons_self c _, hdp⟩
      · exact ⟨y, List.mem_cons_of_mem c hy, hdp⟩

/-- Scanning an antichain whose elements all avoid the previous prefix
keeps everything. -/
theorem minimizeScan_antichain_id (l : List Str) (k : Str)
    (h1 : ∀ x ∈ l, dottedPrefix k x = false)
    (h2 : List.Pairwise (fun a b => dottedPrefix a b = false) l) :
    minimizeScan l (k ++ ['.']) = l := by
  induction l generalizing k with
  | nil => simp [minimizeScan]
  | cons c rest ih =>
    rw [minimizeScan_cons_keep k c rest (h1 c (List.mem_cons_self c rest))]
    rw [List.pairwise_cons] at h2
    rw [ih c h2.1 h2.2]

/-- Claim C1: for every input collection of valid dotted-decimal OID
strings, the output of `minimizeOids` is an antichain under dotted-prefix
order (no retained OID is a dotted-segment prefix of another retained
OID), and every input OID not in the output has exactly one output
element as a dotted-prefix ancestor. -/
theorem claim_C1_minimizeOids_antichain_cover (oids : List Str)
    (hvalid : ∀ s ∈ oids, isValidOid s = true) :
    (∀ a ∈ minimizeOids oids, ∀ b ∈ minimizeOids oids, a ≠ b →
      dottedPrefix a b = false) ∧
    (∀ x ∈ oids, x ∉ minimizeOids oids →
      ∃! k, k ∈ minimizeOids oids ∧ dottedPrefix k x = true) := by
  have hchars : ∀ s ∈ oids, oidChars s = true :=
    fun s hs => oidChars_of_isValidOid s (hvalid s hs)
  have hpw := minimizeOids_pairwise oids hchars
  have hanti : ∀ a ∈ minimizeOids oids, ∀ b ∈ minimizeOids oids, a ≠ b →
      dottedPrefix a b = false := by
    intro a ha b hb hab
    have hsym : Symmetric (fun a b : Str =>
        dottedPrefix a b = false ∧ dottedPrefix b a = false) :=
      fun p q h => ⟨h.2, h.1⟩
    exact (hpw.forall hsym ha hb hab).1
  refine ⟨hanti, ?_⟩
  intro x hx hnotin
  obtain ⟨y, hy, hdp⟩ := minimizeOids_covers oids hchars x hx
  refine ⟨y, ⟨hy, hdp⟩, ?_⟩
  rintro z ⟨hz, hzdp⟩
  by_contra hne
  have hcmp : dottedPrefix z y = true ∨ dottedPrefix y z = true := by
    have h1 := (dottedPrefix_iff z x).mp hzdp
    have h2 := (dottedPrefix_iff y x).mp hdp
    rcases List.prefix_or_prefix_of_prefix h1 h2 with h | h
    · exact Or.inl ((dottedPrefix_iff z y).mpr h)
    · exact Or.inr ((dottedPrefix_iff y z).mpr h)
  rcases hcmp with h | h
  · rw [hanti z hz y hy hne] at h
    exact Bool.false_ne_true h
  · rw [hanti y hy z hz (fun he => hne he.symm)] at h
    exact Bool.false_ne_true h

/-- Witness for claim C1 at a concrete input: `"1.3.6.1.2"` covers
`"1.3.6.1.2.1.2.2.1.10"`, which is discarded. -/
theorem claim_C1_witness :
    (∀ s ∈ [str "1.3.6.1.2", str "1.3.6.1.2.1.2.2.1.10"], isValidOid s = true) ∧
    ((∀ a ∈ minimizeOids [str "1.3.6.1.2", str "1.3.6.1.2.1.2.2.1.10"],
        ∀ b ∈ minimizeOids [str "1.3.6.1.2", str "1.3.6.1.2.1.2.2.1.10"], a ≠ b →
          dottedPrefix a b = false) ∧
     (∀ x ∈ [str "1.3.6.1.2", str "1.3.6.1.2.1.2.2.1.10"],
        x ∉ minimizeOids [str "1.3.6.1.2", str "1.3.6.1.2.1.2.2.1.10"] →
          ∃! k, k ∈ minimizeOids [str "1.3.6.1.2", str "1.3.6.1.2.1.2.2.1.10"] ∧
            dottedPrefix k x = true)) :=
  ⟨by decide, claim_C1_minimizeOids_antichain_cover
    [str "1.3.6.1.2", str "1.3.6.1.2.1.2.2.1.10"] (by decide)⟩

/-- Claim C9: the OID minimizer is idempotent on valid dotted-decimal
OID strings: `minimizeOids (minimizeOids S) = minimizeOids S`. -/
theorem claim_C9_minimizeOids_idempotent (oids : List Str)
    (hvalid : ∀ s ∈ oids, isValidOid s = true) :
    minimizeOids (minimizeOids oids) = minimizeOids oids := by
  have hchars : ∀ s ∈ oids, oidChars s = true :=
    fun s hs => oidChars_of_isValidOid s (hvalid s hs)
  have hpw := minimizeOids_pairwise oids hchars
  have hsorted := minimizeOids_sorted oids
  have hss : sortStrings (minimizeOids oids) = minimizeOids oids :=
    hsorted.insertionSort_eq
  show minimizeScan (sortStrings (minimizeOids oids)) [] = minimizeOids oids
  rw [hss]
  rcases h : minimizeOids oids with _ | ⟨c, rest⟩
  · simp [minimizeScan]
  · rw [minimizeScan_cons_nil]
    rw [h] at hpw
    rw [List.pairwise_cons] at hpw
    rw [minimizeScan_antichain_id rest c (fun x hx => (hpw.1 x hx).1)
      (hpw.2.imp (fun h => h.1))]

/-- Witness for claim C9 at a concrete input. -/
theorem claim_C9_witness :
    (∀ s ∈ [str "1.3.6.1.2", str "1.3.6.1.2.1.2.2.1.10", str "1.4"],
      isValidOid s = true) ∧
    minimizeOids (minimizeOids [str "1.3.6.1.2", str "1.3.6.1.2.1.2.2.1.10", str "1.4"]) =
      minimizeOids [str "1.3.6.1.2", str "1.3.6.1.2.1.2.2.1.10", str "1.4"] :=
  ⟨by decide, claim_C9_minimizeOids_idempotent
    [str "1.3.6.1.2", str "1.3.6.1.2.1.2.2.1.10", str "1.4"] (by decide)⟩

/-- Claim C10: for every input collection of OID strings, the output of
`minimizeOids` is sorted in ascending lexicographic string order and has
no duplicates, and the result is invariant under permutation of the
input (so the walk list is deterministic even though the needed OIDs are
accumulated in an unordered set before minimization). -/
theorem claim_C10_minimizeOids_sorted_nodup_det (oids : List Str) :
    List.Sorted leP (minimizeOids oids) ∧ (minimizeOids oids).Nodup ∧
    (∀ oids2, oids.Perm oids2 → minimizeOids oids = minimizeOids oids2) :=
  ⟨minimizeOids_sorted oids, minimizeOids_nodup oids,
    fun _ h => minimizeOids_perm_invariant _ _ h⟩

/-- Witness for claim C10 at a concrete input and a concrete permutation
of it. -/
theorem claim_C10_witness :
    List.Sorted leP (minimizeOids [str "1.3", str "1.2", str "1.2.5"]) ∧
    (minimizeOids [str "1.3", str "1.2", str "1.2.5"]).Nodup ∧
    minimizeOids [str "1.3", str "1.2", str "1.2.5"] =
      minimizeOids [str "1.2.5", str "1.3", str "1.2"] :=
  ⟨(claim_C10_minimizeOids_sorted_nodup_det [str "1.3", str "1.2", str "1.2.5"]).1,
   (claim_C10_minimizeOids_sorted_nodup_det [str "1.3", str "1.2", str "1.2.5"]).2.1,
   (claim_C10_minimizeOids_sorted_nodup_det [str "1.3", str "1.2", str "1.2.5"]).2.2
     [str "1.2.5", str "1.3", str "1.2"] (by decide)⟩

/-- Claim C8: the label sanitizer is total and idempotent: for every
input string, `sanitizeLabelName (sanitizeLabelName x) = sanitizeLabelName x`,
and the output contains only characters from `[A-Za-z0-9_]`. -/
theorem claim_C8_sanitize_idempotent_total (x : Str) :
    sanitizeLabelName (sanitizeLabelName x) = sanitizeLabelName x ∧
    ∀ c ∈ sanitizeLabelName x, validLabelChar c = true := by
  constructor
  · unfold sanitizeLabelName
    rw [List.map_map]
    apply List.map_congr_left
    intro c _
    by_cases h : validLabelChar c = true
    · simp [Function.comp, h]
    · rw [Bool.not_eq_true] at h
      simp [Function.comp, h]
  · intro c hc
    unfold sanitizeLabelName at hc
    rw [List.mem_map] at hc
    obtain ⟨d, _, rfl⟩ := hc
    by_cases h : validLabelChar d = true
    · simp [h]
    · rw [Bool.not_eq_true] at h
      simp only [h, Bool.false_eq_true, if_false]
      decide

/-! ## The MIB tree data model -/

/-- Modelled from the spec: the field set of the generator's `Node`
struct (the struct declaration lives in a repository file not included
under src/; the fields are exactly the ones `main.go` reads and writes,
matching spec section 3).  Go's `Type` field is called `Typ` here
because `Type` is a Lean keyword. -/
structure NodeData where
  Oid : Str
  Label : Str
  Augments : Str
  Typ : Str
  Access : Str
  Hint : Str
  TextualConvention : Str
  Description : Str
  Indexes : List Str
  FixedSize : Nat
deriving DecidableEq

mutual

/-- A MIB tree node: its scalar fields and the children it exclusively
owns. -/
inductive Node : Type where
  | node : NodeData → NodeList → Node
deriving DecidableEq

/-- A list of MIB tree nodes; mutual with `Node` so that every tree
recursion below is structural (and therefore computable by the kernel). -/
inductive NodeList : Type where
  | nil : NodeList
  | cons : Node → NodeList → NodeList
deriving DecidableEq

end

def Node.data : Node → NodeData
  | .node d _ => d

def Node.children : Node → NodeList
  | .node _ cs => cs

def NodeList.length : NodeList → Nat
  | .nil => 0
  | .cons _ l => l.length + 1

def NodeList.get? : NodeList → Nat → Option Node
  | .nil, _ => none
  | .cons n _, 0 => some n
  | .cons _ l, i + 1 => l.get? i

/-- A position in the tree: the list of child indices leading from the
root.  Positions model Go pointers (node identity): the generator never
mutates the child structure, only node fields, so a node's position is
stable across all passes. -/
abbrev Pos := List Nat

def Node.get? : Node → Pos → Option Node
  | n, [] => some n
  | n, i :: p =>
    match NodeList.get? n.children i with
    | none => none
    | some c => Node.get? c p

def NodeList.modify : NodeList → Nat → (Node → Node) → NodeList
  | .nil, _, _ => .nil
  | .cons n l, 0, f => .cons (f n) l
  | .cons n l, i + 1, f => .cons n (l.modify i f)

/-- Overwrite the `Indexes` field of the node at position `p` (models a
Go assignment through a pointer into the tree). -/
def Node.setIndexes : Node → Pos → List Str → Node
  | .node d cs, [], v => .node {d with Indexes := v} cs
  | .node d cs, i :: p, v => .node d (cs.modify i (fun c => Node.setIndexes c p v))

mutual

/-- The preorder positions of all nodes of the tree, in the order
`WalkNode` (generator/main.go:57-62) visits them: the node itself, then
each child subtree in order. -/
def Node.preorderPositions : Node → List Pos
  | .node _ cs => [] :: NodeList.preorderPositions 0 cs

/-- Positions of the nodes of a child list starting at child index `i`,
in `WalkNode` order. -/
def NodeList.preorderPositions : Nat → NodeList → List Pos
  | _, .nil => []
  | i, .cons c cs =>
    (Node.preorderPositions c).map (fun p => i :: p) ++
      NodeList.preorderPositions (i + 1) cs

end

/-- Insertion into the name-to-node map (later insertions win, as for a
Go map). -/
def insertName (m : Str → Option Pos) (key : Str) (p : Pos) : Str → Option Pos :=
  fun s => if s = key then some p else m s

/-- The Name Index construction of generator/main.go:66-71: walk the
tree in preorder, inserting `oid ↦ node` then `label ↦ node` for every
node.  The values are node identities (positions). -/
def buildNameToPos (tree : Node) : Str → Option Pos :=
  tree.preorderPositions.foldl
    (fun m p =>
      match tree.get? p with
      | none => m
      | some n => insertName (insertName m n.data.Oid p) n.data.Label p)
    (fun _ => none)

mutual

/-- Apply a per-node field rewrite to every node of the tree (the shape
of the passes of `PrepareTree` that only read and write the visited
node itself). -/
def mapNode (f : NodeData → NodeData) : Node → Node
  | .node d cs => .node (f d) (mapNodes f cs)

/-- `mapNode` on every node of a child list. -/
def mapNodes (f : NodeData → NodeData) : NodeList → NodeList
  | .nil => .nil
  | .cons c cs => .cons (mapNode f c) (mapNodes f cs)

end

/-! ## `PrepareTree` (generator/main.go:64-142) -/

/-- The ASCII cases of Go's `unicode.IsSpace`, which `strings.Fields`
splits on. -/
def isSpaceGo (c : Char) : Bool :=
  c = ' ' || c = '\t' || c = '\n' || c = '\x0b' || c = '\x0c' || c = '\r'

/-- `strings.Fields`: the maximal runs of non-whitespace characters. -/
def fields (s : Str) : List Str :=
  (s.foldr (fun c acc =>
    if isSpaceGo c then [] :: acc
    else
      match acc with
      | [] => [[c]]
      | w :: ws => (c :: w) :: ws) []).filter (fun w => w ≠ [])

/-- `strings.Join(ws, " ")`. -/
def joinSpace (ws : List Str) : Str := List.intercalate [' '] ws

/-- `strings.Split(s, ". ")[0]`: the prefix of `s` before the first
occurrence of `". "`, or all of `s` if the separator does not occur. -/
def takeUntilDotSpace : Str → Str
  | [] => []
  | c :: cs =>
    if List.isPrefixOf ['.', ' '] (c :: cs) then []
    else c :: takeUntilDotSpace cs

/-- Pass 1 (generator/main.go:73-77): collapse whitespace runs and keep
only the first sentence of the description. -/
def trimDescription (d : NodeData) : NodeData :=
  {d with Description := takeUntilDotSpace (joinSpace (fields d.Description))}

/-- Pass 2 (generator/main.go:79-92): replace the literal index entry
`"INTEGER"` by the node's own label. -/
def fixSelfIndexes (d : NodeData) : NodeData :=
  {d with Indexes := d.Indexes.map (fun i => if i = str "INTEGER" then d.Label else i)}

/-- Whether the display hint matches the Go regexp `\d+[at]` under
`MatchString` (unanchored): some digit is immediately followed by an
`a` or a `t`. -/
def hasDigitThenAT : Str → Bool
  | c1 :: c2 :: rest => (c1.isDigit && (c2 = 'a' || c2 = 't')) || hasDigitThenAT (c2 :: rest)
  | _ => false

/-- Pass 5 (generator/main.go:119-139): reclassify types from display
hints and textual conventions, in the order the Go code applies the
three rewrites. -/
def reclassifyHint (d : NodeData) : NodeData :=
  let d1 := if d.Hint = str "1x:" then {d with Typ := str "PhysAddress48"} else d
  let d2 := if hasDigitThenAT d1.Hint then {d1 with Typ := str "DisplayString"} else d1
  if d2.TextualConvention = str "DisplayString" then
    {d2 with Typ := str "DisplayString"}
  else d2

/-- Pass 4 on a child list (generator/main.go:110-117): a parent with a
non-empty index list overwrites every direct child's indexes before the
child itself is visited, so the preorder walk cascades indexes down the
tree; `idx` is the (already final) index list of the parent. -/
def tablePassChildren : List Str → NodeList → NodeList
  | _, .nil => .nil
  | idx, .cons (.node cd ccs) cs =>
    let cd2 := if idx = [] then cd else {cd with Indexes := idx}
    .cons (.node cd2 (tablePassChildren cd2.Indexes ccs)) (tablePassChildren idx cs)

/-- Pass 4 at the root: the root keeps its own indexes and rewrites its
subtree. -/
def tablePassNode : Node → Node
  | .node d cs => .node d (tablePassChildren d.Indexes cs)

/-- One assignment `c.Indexes = augmented.Indexes` of the pass-3 child
loop (generator/main.go:104-106): reread the augmented node at `q` from
the current tree and write its indexes into child `i` of `p`. -/
def augmentWrite (q p : Pos) (t1 : Node) (i : Nat) : Node :=
  match t1.get? q with
  | none => t1
  | some aug => t1.setIndexes (p ++ [i]) aug.data.Indexes

/-- The body of one pass-3 visit once the augmented node resolved to
position `q` (generator/main.go:104-107): write the augmented node's
current indexes into each of the `numChildren` children of `p` in
order, then into `p` itself, rereading the tree at every assignment
exactly as the Go loop reads through the `augmented` pointer (this
matters when the augmented node is `p` itself or one of its children). -/
def augmentApply (q p : Pos) (numChildren : Nat) (t : Node) : Node :=
  let t2 := (List.range numChildren).foldl (augmentWrite q p) t
  match t2.get? q with
  | none => t2
  | some aug => t2.setIndexes p aug.data.Indexes

/-- One visit of pass 3 (generator/main.go:95-108) at position `p`:
resolve the augmented node through the Name Index; if unresolved, warn
and skip; otherwise copy its current indexes onto the children of `p`
and onto `p` itself. -/
def augmentStep (n2p : Str → Option Pos) (t : Node) (p : Pos) : Node :=
  match t.get? p with
  | none => t
  | some n =>
    if n.data.Augments = [] then t
    else
      match n2p n.data.Augments with
      | none => t
      | some q => augmentApply q p n.children.length t

/-- Pass 3 (generator/main.go:94-108): visit every node in preorder and
copy the augmented node's current indexes over. -/
def augmentPass (n2p : Str → Option Pos) (t : Node) : Node :=
  t.preorderPositions.foldl (augmentStep n2p) t

/-- `PrepareTree` (generator/main.go:64-142): build the name-to-node
map, then run the five normalization passes in order.  The map holds
node identities (positions), so reads through it after the passes see
the rewritten nodes; the returned lookup therefore dereferences the
final tree. -/
def PrepareTree (nodes : Node) : Node × (Str → Option Node) :=
  let n2p := buildNameToPos nodes
  let t1 := mapNode trimDescription nodes
  let t2 := mapNode fixSelfIndexes t1
  let t3 := augmentPass n2p t2
  let t4 := tablePassNode t3
  let t5 := mapNode reclassifyHint t4
  (t5, fun s => (n2p s).bind (fun p => t5.get? p))

/-! ## Output config model -/

/-- Modelled from the spec: the opaque regex-extraction payload carried
by overrides (`MetricOverrides.RegexpExtracts` in the external config
schema); the generator copies it verbatim and never inspects it, so any
type with decidable equality is a faithful stand-in. -/
abbrev RegexpExtractsT := List (Str × Str)

/-- Modelled from the spec: `config.Index` as used by main.go
(labelname, type, fixed size). -/
structure Index where
  Labelname : Str
  Typ : Str
  FixedSize : Nat
deriving DecidableEq

/-- Modelled from the spec: `config.Lookup` as used by main.go
(labels, labelname, type, oid). -/
structure Lookup where
  Labels : List Str
  Labelname : Str
  Typ : Str
  Oid : Str
deriving DecidableEq

/-- Modelled from the spec: `config.Metric` as used by main.go.  Go's
`Type` field is called `Typ` (Lean keyword). -/
structure Metric where
  Name : Str
  Oid : Str
  Typ : Str
  Help : Str
  Indexes : List Index
  Lookups : List Lookup
  RegexpExtracts : RegexpExtractsT
deriving DecidableEq

/-- Modelled from the spec: `config.Module` as used by main.go (the
opaque `WalkParams` pass-through is not part of the generation logic
under test). -/
structure Module where
  Metrics : List Metric
  Walk : List Str
deriving DecidableEq

/-- Modelled from the spec: one lookup rule of a `ModuleConfig`
(replace the index labelled `OldIndex` by the node named `NewIndex`). -/
structure LookupConfig where
  OldIndex : Str
  NewIndex : Str
deriving DecidableEq

/-- Modelled from the spec: the per-module directives.  `Overrides` is
a Go map from metric name-or-OID to override parameters; it is modelled
as an association list whose order stands for one (arbitrary) map
iteration order. -/
structure ModuleConfig where
  Walk : List Str
  Lookups : List LookupConfig
  Overrides : List (Str × RegexpExtractsT)
deriving DecidableEq

/-! ## Type and access classifiers (generator/main.go:144-173) -/

/-- `metricType`: map a MIB syntax-type token to the output metric kind;
`none` means unsupported (Go returns `("", false)`). -/
def metricType (t : Str) : Option Str :=
  if t = str "INTEGER" || t = str "GAUGE" || t = str "TIMETICKS" ||
      t = str "UINTEGER" || t = str "UNSIGNED32" || t = str "INTEGER32" then
    some (str "gauge")
  else if t = str "COUNTER" || t = str "COUNTER64" then some (str "counter")
  else if t = str "OCTETSTR" || t = str "BITSTRING" then some (str "OctetString")
  else if t = str "IPADDR" then some (str "IpAddr")
  else if t = str "NETADDR" then some (str "InetAddress")
  else if t = str "PhysAddress48" || t = str "DisplayString" then some t
  else none

/-- `metricAccess`: whether a node with this access token is exposed. -/
def metricAccess (a : Str) : Bool :=
  a = str "ACCESS_READONLY" || a = str "ACCESS_READWRITE" ||
    a = str "ACCESS_CREATE" || a = str "ACCESS_NOACCESS"

/-! ## `generateConfigModule` (generator/main.go:189-289) -/

/-- Build the `Indexes` list of a candidate metric
(generator/main.go:226-240): each raw index label is stored verbatim as
the labelname, must resolve in the Name Index, and its node's type must
classify; any failure discards the whole candidate metric (`none`). -/
def buildIndexes (n2n : Str → Option Node) : List Str → Option (List Index)
  | [] => some []
  | i :: rest =>
    match n2n i with
    | none => none
    | some indexNode =>
      match metricType indexNode.data.Typ with
      | none => none
      | some t =>
        (buildIndexes n2n rest).map
          (fun tl => { Labelname := i, Typ := t, FixedSize := indexNode.data.FixedSize } :: tl)

/-- The candidate metric for one visited node
(generator/main.go:208-242): requires a classifiable type and an
exposed access, name is the sanitized label, help is the description
with the OID appended, indexes from `buildIndexes`. -/
def metricFromNode (n2n : Str → Option Node) (d : NodeData) : Option Metric :=
  match metricType d.Typ with
  | none => none
  | some t =>
    if metricAccess d.Access then
      match buildIndexes n2n d.Indexes with
      | none => none
      | some idxs =>
        some { Name := sanitizeLabelName d.Label, Oid := d.Oid, Typ := t,
               Help := d.Description ++ str " - " ++ d.Oid,
               Indexes := idxs, Lookups := [], RegexpExtracts := [] }
    else none

mutual

/-- All metrics collected by `WalkNode` over one subtree, in visit
order (the node itself, then its children). -/
def collectMetrics (n2n : Str → Option Node) : Node → List Metric
  | .node d cs => (metricFromNode n2n d).toList ++ collectMetricsList n2n cs

/-- `collectMetrics` over a child list. -/
def collectMetricsList (n2n : Str → Option Node) : NodeList → List Metric
  | .nil => []
  | .cons c cs => collectMetrics n2n c ++ collectMetricsList n2n cs

end

/-- Insertion into the `needToWalk` set (a Go `map[string]struct{}`),
modelled as an ordered duplicate-free list; the final `minimizeOids`
sorts, so the insertion order never reaches the output. -/
def insertSet (s : List Str) (x : Str) : List Str :=
  if x ∈ s then s else s ++ [x]

/-- Resolve each `walk` entry through the Name Index to its canonical
OID (generator/main.go:194-201); the first unresolvable entry is fatal
(`log.Fatalf`, modelled as an error). -/
def resolveWalk (n2n : Str → Option Node) : List Str → Except Str (List Str)
  | [] => .ok []
  | oid :: rest =>
    match n2n oid with
    | none => .error (str "Cannot find oid to walk")
    | some nd => (resolveWalk n2n rest).map (fun tl => nd.data.Oid :: tl)

/-- The metric-collection loop over the minimized walk roots
(generator/main.go:205-243): re-resolve each root, record its OID in
`needToWalk`, and append the metrics of its subtree.  A root missing
from the Name Index would be a nil-pointer dereference in Go (the map
returns `nil` and `node.Oid` panics); that abort is modelled as an
error. -/
def metricsPhase (n2n : Str → Option Node) :
    List Str → List Str → List Metric → Except Str (List Str × List Metric)
  | [], ntw, ms => .ok (ntw, ms)
  | oid :: rest, ntw, ms =>
    match n2n oid with
    | none => .error (str "nil node dereference")
    | some nd =>
      metricsPhase n2n rest (insertSet ntw nd.data.Oid) (ms ++ collectMetrics n2n nd)

/-- One lookup rule applied to one metric's index list
(generator/main.go:248-269): an index whose labelname equals the rule's
`OldIndex` triggers resolution of `NewIndex` (fatal if missing), a
fatal check of its type, the in-place rewrite of the index labelname to
the sanitized new label, an appended `Lookup` record, and insertion of
the new OID into `needToWalk`. -/
def applyLookupToIndexes (n2n : Str → Option Node) (l : LookupConfig) :
    List Index → List Lookup → List Str → Except Str (List Index × List Lookup × List Str)
  | [], lks, ntw => .ok ([], lks, ntw)
  | idx :: rest, lks, ntw =>
    if idx.Labelname = l.OldIndex then
      match n2n l.NewIndex with
      | none => .error (str "Unknown index")
      | some indexNode =>
        match metricType indexNode.data.Typ with
        | none => .error (str "Unknown index type")
        | some typ =>
          (applyLookupToIndexes n2n l rest
              (lks ++ [{ Labels := [sanitizeLabelName indexNode.data.Label],
                         Labelname := sanitizeLabelName indexNode.data.Label,
                         Typ := typ, Oid := indexNode.data.Oid }])
              (insertSet ntw indexNode.data.Oid)).map
            (fun r => ({ idx with Labelname := sanitizeLabelName indexNode.data.Label } :: r.1,
                       r.2.1, r.2.2))
    else
      (applyLookupToIndexes n2n l rest lks ntw).map (fun r => (idx :: r.1, r.2.1, r.2.2))

/-- One lookup rule applied to every metric in order
(generator/main.go:247-270). -/
def applyLookupToMetrics (n2n : Str → Option Node) (l : LookupConfig) :
    List Metric → List Str → Except Str (List Metric × List Str)
  | [], ntw => .ok ([], ntw)
  | m :: ms, ntw =>
    match applyLookupToIndexes n2n l m.Indexes m.Lookups ntw with
    | .error e => .error e
    | .ok (idxs, lks, ntw2) =>
      (applyLookupToMetrics n2n l ms ntw2).map
        (fun r => ({ m with Indexes := idxs, Lookups := lks } :: r.1, r.2))

/-- All lookup rules in order (generator/main.go:246-271). -/
def applyLookups (n2n : Str → Option Node) :
    List LookupConfig → List Metric → List Str → Except Str (List Metric × List Str)
  | [], ms, ntw => .ok (ms, ntw)
  | l :: ls, ms, ntw =>
    match applyLookupToMetrics n2n l ms ntw with
    | .error e => .error e
    | .ok (ms2, ntw2) => applyLookups n2n ls ms2 ntw2

/-- The override step (generator/main.go:273-280): for each override
key in iteration order, every metric whose name or OID equals the key
gets the override's regex-extraction payload assigned (overwriting any
previously assigned one). -/
def applyOverrides : List (Str × RegexpExtractsT) → List Metric → List Metric
  | [], ms => ms
  | kv :: rest, ms =>
    applyOverrides rest
      (ms.map (fun m =>
        if kv.1 = m.Name ∨ kv.1 = m.Oid then { m with RegexpExtracts := kv.2 } else m))

/-- The regex-extraction payload a metric ends up with after the
override step: the payload of the last matching override key in
iteration order, or the metric's original payload if no key matches. -/
def lastMatchRE (overrides : List (Str × RegexpExtractsT)) (m : Metric) : RegexpExtractsT :=
  overrides.foldl (fun acc kv => if kv.1 = m.Name ∨ kv.1 = m.Oid then kv.2 else acc)
    m.RegexpExtracts

/-- `generateConfigModule` (generator/main.go:189-289).  The Go
function also receives the tree root, but never reads it (every use of
`node` in the body is a shadowing local), so it is not a parameter
here; `log.Fatalf` aborts are `Except.error`. -/
def generateConfigModule (cfg : ModuleConfig) (n2n : Str → Option Node) :
    Except Str Module :=
  match resolveWalk n2n cfg.Walk with
  | .error e => .error e
  | .ok toWalk0 =>
    match metricsPhase n2n (minimizeOids toWalk0) [] [] with
    | .error e => .error e
    | .ok (ntw, metrics) =>
      match applyLookups n2n cfg.Lookups metrics ntw with
      | .error e => .error e
      | .ok (metrics2, ntw2) =>
        .ok { Metrics := applyOverrides cfg.Overrides metrics2,
              Walk := minimizeOids ntw2 }

/-! ## Claim C5: unresolvable walk entries are fatal -/

theorem resolveWalk_error_of_unresolvable (n2n : Str → Option Node) (ws : List Str)
    (h : ∃ w ∈ ws, n2n w = none) : ∃ e, resolveWalk n2n ws = Except.error e := by
  induction ws with
  | nil => obtain ⟨w, hw, _⟩ := h; exact absurd hw (List.not_mem_nil w)
  | cons w rest ih =>
    obtain ⟨w0, hw0, hn⟩ := h
    rcases List.mem_cons.mp hw0 with rfl | hw0r
    · exact ⟨str "Cannot find oid to walk", by simp [resolveWalk, hn]⟩
    · cases hcase : n2n w with
      | none => exact ⟨str "Cannot find oid to walk", by simp [resolveWalk, hcase]⟩
      | some nd =>
        obtain ⟨e, he⟩ := ih ⟨w0, hw0r, hn⟩
        exact ⟨e, by simp [resolveWalk, hcase, he, Except.map]⟩

/-- Claim C5: for every `ModuleConfig` whose walk list contains an entry
(OID or label) that does not resolve in the Name Index,
`generateConfigModule` aborts the whole run with a fatal error before
producing any output `Module`. -/
theorem claim_C5_unresolvable_walk_fatal (cfg : ModuleConfig) (n2n : Str → Option Node)
    (h : ∃ w ∈ cfg.Walk, n2n w = none) :
    ∃ e, generateConfigModule cfg n2n = Except.error e := by
  obtain ⟨e, he⟩ := resolveWalk_error_of_unresolvable n2n cfg.Walk h
  exact ⟨e, by simp [generateConfigModule, he]⟩

/-- Tree for the fatal-walk and lookup witnesses: a neutral root with a
metric node `m1` (indexed by `oldIdx`) and the index node `oldIdx`. -/
def witnessTree : Node :=
  .node ⟨str "1", str "rootNode", [], [], [], [], [], [], [], 0⟩
    (.cons (.node ⟨str "1.1", str "m1", [], str "INTEGER", str "ACCESS_READONLY",
        [], [], [], [str "oldIdx"], 0⟩ .nil)
      (.cons (.node ⟨str "1.2", str "oldIdx", [], str "INTEGER", str "ACCESS_READONLY",
        [], [], [], [], 0⟩ .nil) .nil))

/-- Witness for claim C5: walking `doesNotExist` aborts. -/
theorem claim_C5_witness :
    (∃ w ∈ [str "doesNotExist"], (PrepareTree witnessTree).2 w = none) ∧
    ∃ e, generateConfigModule { Walk := [str "doesNotExist"], Lookups := [], Overrides := [] }
      (PrepareTree witnessTree).2 = Except.error e :=
  ⟨⟨str "doesNotExist", List.mem_singleton.mpr rfl, by rfl⟩,
   claim_C5_unresolvable_walk_fatal
     { Walk := [str "doesNotExist"], Lookups := [], Overrides := [] }
     (PrepareTree witnessTree).2
     ⟨str "doesNotExist", List.mem_singleton.mpr rfl, by rfl⟩⟩

/-! ## Claim C4: unresolvable lookup targets -/

theorem applyLookupToIndexes_error (n2n : Str → Option Node) (l : LookupConfig)
    (idxs : List Index) (lks : List Lookup) (ntw : List Str)
    (hn : n2n l.NewIndex = none)
    (h : ∃ idx ∈ idxs, idx.Labelname = l.OldIndex) :
    ∃ e, applyLookupToIndexes n2n l idxs lks ntw = Except.error e := by
  induction idxs generalizing lks ntw with
  | nil => obtain ⟨i, hi, _⟩ := h; exact absurd hi (List.not_mem_nil i)
  | cons idx rest ih =>
    by_cases hl : idx.Labelname = l.OldIndex
    · exact ⟨str "Unknown index", by simp [applyLookupToIndexes, hl, hn]⟩
    · obtain ⟨i, hi, hil⟩ := h
      rcases List.mem_cons.mp hi with rfl | hir
      · exact absurd hil hl
      · obtain ⟨e, he⟩ := ih lks ntw ⟨i, hir, hil⟩
        exact ⟨e, by simp [applyLookupToIndexes, hl, he, Except.map]⟩

theorem applyLookupToMetrics_error (n2n : Str → Option Node) (l : LookupConfig)
    (ms : List Metric) (ntw : List Str)
    (hn : n2n l.NewIndex = none)
    (h : ∃ m ∈ ms, ∃ idx ∈ m.Indexes, idx.Labelname = l.OldIndex) :
    ∃ e, applyLookupToMetrics n2n l ms ntw = Except.error e := by
  induction ms generalizing ntw with
  | nil => obtain ⟨m, hm, _⟩ := h; exact absurd hm (List.not_mem_nil m)
  | cons m rest ih =>
    obtain ⟨m0, hm0, hidx⟩ := h
    rcases List.mem_cons.mp hm0 with rfl | hm0r
    · obtain ⟨e, he⟩ := applyLookupToIndexes_error n2n l m0.Indexes m0.Lookups ntw hn hidx
      exact ⟨e, by simp [applyLookupToMetrics, he]⟩
    · cases hcase : applyLookupToIndexes n2n l m.Indexes m.Lookups ntw with
      | error e => exact ⟨e, by simp [applyLookupToMetrics, hcase]⟩
      | ok r =>
        obtain ⟨e, he⟩ := ih r.2.2 ⟨m0, hm0r, hidx⟩
        exact ⟨e, by simp [applyLookupToMetrics, hcase, he, Except.map]⟩

theorem applyLookups_append (n2n : Str → Option Node) (ls1 ls2 : List LookupConfig)
    (ms : List Metric) (ntw : List Str) :
    applyLookups n2n (ls1 ++ ls2) ms ntw =
      match applyLookups n2n ls1 ms ntw with
      | .error e => .error e
      | .ok (ms1, ntw1) => applyLookups n2n ls2 ms1 ntw1 := by
  induction ls1 generalizing ms ntw with
  | nil => simp [applyLookups]
  | cons l rest ih =>
    cases hcase : applyLookupToMetrics n2n l ms ntw with
    | error e => simp [applyLookups, hcase]
    | ok r => simp [applyLookups, hcase, ih r.1 r.2]

/-- Claim C4, amended: an unresolvable lookup target aborts the run
only when the rule is actually triggered.  If the walk and metric
phases succeed, the rules before the bad one succeed, and at that point
some metric still has an index labelled with the rule's `oldIndex`,
then `generateConfigModule` aborts with a fatal error; the
counterexample shows that with no matching index the unresolvable
target is never even looked up. -/
theorem claim_C4_amended_lookup_fatal (cfg : ModuleConfig) (n2n : Str → Option Node)
    (l : LookupConfig) (ls1 ls2 : List LookupConfig)
    (tw ntw ntw1 : List Str) (ms ms1 : List Metric)
    (hcfg : cfg.Lookups = ls1 ++ l :: ls2)
    (hn : n2n l.NewIndex = none)
    (hwalk : resolveWalk n2n cfg.Walk = Except.ok tw)
    (hphase : metricsPhase n2n (minimizeOids tw) [] [] = Except.ok (ntw, ms))
    (hpre : applyLookups n2n ls1 ms ntw = Except.ok (ms1, ntw1))
    (hmatch : ∃ m ∈ ms1, ∃ idx ∈ m.Indexes, idx.Labelname = l.OldIndex) :
    ∃ e, generateConfigModule cfg n2n = Except.error e := by
  obtain ⟨e, he⟩ := applyLookupToMetrics_error n2n l ms1 ntw1 hn hmatch
  refine ⟨e, ?_⟩
  have hlk : applyLookups n2n cfg.Lookups ms ntw = Except.error e := by
    rw [hcfg, applyLookups_append, hpre]
    simp [applyLookups, he]
  simp [generateConfigModule, hwalk, hphase, hlk]

/-- The metric list produced for `witnessTree` when walking `m1`. -/
def witnessMetric : Metric :=
  { Name := str "m1", Oid := str "1.1", Typ := str "gauge", Help := str " - 1.1",
    Indexes := [{ Labelname := str "oldIdx", Typ := str "gauge", FixedSize := 0 }],
    Lookups := [], RegexpExtracts := [] }

/-- Witness for the amended claim C4: a lookup rule whose `oldIndex`
matches the produced metric's index and whose `newIndex` is
unresolvable aborts the run. -/
theorem claim_C4_witness :
    (PrepareTree witnessTree).2 (str "nope") = none ∧
    ∃ e, generateConfigModule
      { Walk := [str "m1"], Lookups := [⟨str "oldIdx", str "nope"⟩], Overrides := [] }
      (PrepareTree witnessTree).2 = Except.error e :=
  ⟨by rfl,
   claim_C4_amended_lookup_fatal
     { Walk := [str "m1"], Lookups := [⟨str "oldIdx", str "nope"⟩], Overrides := [] }
     (PrepareTree witnessTree).2
     ⟨str "oldIdx", str "nope"⟩ [] []
     [str "1.1"] [str "1.1"] [str "1.1"] [witnessMetric] [witnessMetric]
     rfl (by rfl) (by rfl) (by rfl) (by rfl)
     ⟨witnessMetric, List.mem_singleton.mpr rfl,
      { Labelname := str "oldIdx", Typ := str "gauge", FixedSize := 0 },
      List.mem_singleton.mpr rfl, rfl⟩⟩

/-- Counterexample to claim C4 as stated: a `ModuleConfig` whose single
lookup rule has an unresolvable `newIndex`, but no produced metric has
an index matching `oldIndex` (here: an empty walk), silently produces
an output `Module` instead of aborting. -/
theorem claim_C4_counterexample :
    generateConfigModule
      { Walk := [], Lookups := [⟨str "old", str "doesNotExist"⟩], Overrides := [] }
      (PrepareTree witnessTree).2
    = Except.ok { Metrics := [], Walk := [] } ∧
    (PrepareTree witnessTree).2 (str "doesNotExist") = none :=
  ⟨by rfl, by rfl⟩

/-! ## Claim C3: which output labels are sanitized -/

/-- Every character the sanitizer outputs is in `[A-Za-z0-9_]`. -/
theorem sanitize_all_valid (s : Str) : (sanitizeLabelName s).all validLabelChar = true := by
  rw [List.all_eq_true]
  intro c hc
  unfold sanitizeLabelName at hc
  rw [List.mem_map] at hc
  obtain ⟨d, _, rfl⟩ := hc
  by_cases h : validLabelChar d = true
  · simp [h]
  · rw [Bool.not_eq_true] at h
    simp only [h, Bool.false_eq_true, if_false]
    decide

/-- The sanitization facts that hold of every produced metric: the name
is sanitized and so is every lookup labelname. -/
def cleanMetric (m : Metric) : Prop :=
  m.Name.all validLabelChar = true ∧
    ∀ lk ∈ m.Lookups, lk.Labelname.all validLabelChar = true

theorem metricFromNode_clean (n2n : Str → Option Node) (d : NodeData) (m : Metric)
    (h : metricFromNode n2n d = some m) : cleanMetric m := by
  unfold metricFromNode at h
  rcases hmt : metricType d.Typ with _ | t
  · rw [hmt] at h; exact absurd h (by simp)
  · rw [hmt] at h
    by_cases ha : metricAccess d.Access = true
    · simp only [ha, if_true] at h
      rcases hbi : buildIndexes n2n d.Indexes with _ | idxs
      · rw [hbi] at h; exact absurd h (by simp)
      · rw [hbi] at h
        simp only [Option.some.injEq] at h
        subst h
        exact ⟨sanitize_all_valid d.Label, by intro lk hlk; exact absurd hlk (List.not_mem_nil lk)⟩
    · rw [Bool.not_eq_true] at ha
      simp only [ha, Bool.false_eq_true, if_false] at h
      exact absurd h (by simp)

mutual

theorem collectMetrics_clean (n2n : Str → Option Node) :
    ∀ (t : Node), ∀ m ∈ collectMetrics n2n t, cleanMetric m
  | .node d cs => by
    intro m hm
    rw [collectMetrics] at hm
    rcases List.mem_append.mp hm with h | h
    · rcases hmf : metricFromNode n2n d with _ | m0
      · rw [hmf] at h; exact absurd h (List.not_mem_nil m)
      · rw [hmf] at h
        simp only [Option.toList_some, List.mem_singleton] at h
        subst h
        exact metricFromNode_clean n2n d m hmf
    · exact collectMetricsList_clean n2n cs m h

theorem collectMetricsList_clean (n2n : Str → Option Node) :
    ∀ (cs : NodeList), ∀ m ∈ collectMetricsList n2n cs, cleanMetric m
  | .nil => by
    intro m hm
    rw [collectMetricsList] at hm
    exact absurd hm (List.not_mem_nil m)
  | .cons c cs => by
    intro m hm
    rw [collectMetricsList] at hm
    rcases List.mem_append.mp hm with h | h
    · exact collectMetrics_clean n2n c m h
    · exact collectMetricsList_clean n2n cs m h

end

theorem metricsPhase_clean (n2n : Str → Option Node) (ws : List Str)
    (ntw : List Str) (ms : List Metric) (r : List Str × List Metric)
    (h : metricsPhase n2n ws ntw ms = Except.ok r)
    (hms : ∀ m ∈ ms, cleanMetric m) :
    ∀ m ∈ r.2, cleanMetric m := by
  induction ws generalizing ntw ms with
  | nil =>
    rw [metricsPhase] at h
    simp only [Except.ok.injEq] at h
    subst h
    exact hms
  | cons w rest ih =>
    rw [metricsPhase] at h
    rcases hw : n2n w with _ | nd
    · rw [hw] at h; exact absurd h (by simp)
    · rw [hw] at h
      exact ih _ _ h (fun m hm =>
        (List.mem_append.mp hm).elim (hms m) (collectMetrics_clean n2n nd m))

theorem applyLookupToIndexes_clean (n2n : Str → Option Node) (l : LookupConfig)
    (idxs : List Index) (lks : List Lookup) (ntw : List Str)
    (r : List Index × List Lookup × List Str)
    (h : applyLookupToIndexes n2n l idxs lks ntw = Except.ok r)
    (hlks : ∀ lk ∈ lks, lk.Labelname.all validLabelChar = true) :
    ∀ lk ∈ r.2.1, lk.Labelname.all validLabelChar = true := by
  induction idxs generalizing lks ntw r with
  | nil =>
    rw [applyLookupToIndexes] at h
    simp only [Except.ok.injEq] at h
    subst h
    exact hlks
  | cons idx rest ih =>
    rw [applyLookupToIndexes] at h
    by_cases hl : idx.Labelname = l.OldIndex
    · simp only [hl, if_true, if_pos] at h
      rcases hn : n2n l.NewIndex with _ | indexNode
      · rw [hn] at h; exact absurd h (by simp)
      · simp only [hn] at h
        rcases hmt : metricType indexNode.data.Typ with _ | typ
        · rw [hmt] at h; exact absurd h (by simp)
        · simp only [hmt] at h
          rcases hrec : applyLookupToIndexes n2n l rest
              (lks ++ [{ Labels := [sanitizeLabelName indexNode.data.Label],
                         Labelname := sanitizeLabelName indexNode.data.Label,
                         Typ := typ, Oid := indexNode.data.Oid }])
              (insertSet ntw indexNode.data.Oid) with _ | r0
          · rw [hrec] at h; exact absurd h (by simp [Except.map])
          · rw [hrec] at h
            simp only [Except.map, Except.ok.injEq] at h
            subst h
            intro lk hlk
            refine ih _ _ r0 hrec ?_ lk hlk
            intro lk2 hlk2
            rcases List.mem_append.mp hlk2 with h2 | h2
            · exact hlks lk2 h2
            · rw [List.mem_singleton] at h2
              subst h2
              exact sanitize_all_valid indexNode.data.Label
    · simp only [hl, if_false] at h
      rcases hrec : applyLookupToIndexes n2n l rest lks ntw with _ | r0
      · rw [hrec] at h; exact absurd h (by simp [Except.map])
      · rw [hrec] at h
        simp only [Except.map, Except.ok.injEq] at h
        subst h
        exact ih lks ntw r0 hrec hlks

theorem applyLookupToMetrics_clean (n2n : Str → Option Node) (l : LookupConfig)
    (ms : List Metric) (ntw : List Str) (r : List Metric × List Str)
    (h : applyLookupToMetrics n2n l ms ntw = Except.ok r)
    (hms : ∀ m ∈ ms, cleanMetric m) :
    ∀ m ∈ r.1, cleanMetric m := by
  induction ms generalizing ntw r with
  | nil =>
    rw [applyLookupToMetrics] at h
    simp only [Except.ok.injEq] at h
    subst h
    exact hms
  | cons m rest ih =>
    rw [applyLookupToMetrics] at h
    rcases hidx : applyLookupToIndexes n2n l m.Indexes m.Lookups ntw with _ | r0
    · rw [hidx] at h; exact absurd h (by simp)
    · obtain ⟨idxs0, lks0, ntw0⟩ := r0
      simp only [hidx] at h
      rcases hrec : applyLookupToMetrics n2n l rest ntw0 with _ | r1
      · rw [hrec] at h; exact absurd h (by simp [Except.map])
      · simp only [hrec, Except.map, Except.ok.injEq] at h
        subst h
        intro m2 hm2
        rcases List.mem_cons.mp hm2 with rfl | hm2r
        · exact ⟨(hms m (List.mem_cons_self m rest)).1,
            applyLookupToIndexes_clean n2n l m.Indexes m.Lookups ntw _ hidx
              (hms m (List.mem_cons_self m rest)).2⟩
        · exact ih ntw0 r1 hrec (fun m3 hm3 => hms m3 (List.mem_cons_of_mem m hm3)) m2 hm2r

theorem applyLookups_clean (n2n : Str → Option Node) (ls : List LookupConfig)
    (ms : List Metric) (ntw : List Str) (r : List Metric × List Str)
    (h : applyLookups n2n ls ms ntw = Except.ok r)
    (hms : ∀ m ∈ ms, cleanMetric m) :
    ∀ m ∈ r.1, cleanMetric m := by
  induction ls generalizing ms ntw with
  | nil =>
    rw [applyLookups] at h
    simp only [Except.ok.injEq] at h
    subst h
    exact hms
  | cons l rest ih =>
    rw [applyLookups] at h
    rcases hl : applyLookupToMetrics n2n l ms ntw with _ | r0
    · rw [hl] at h; exact absurd h (by simp)
    · rw [hl] at h
      exact ih r0.1 r0.2 h (applyLookupToMetrics_clean n2n l ms ntw r0 hl hms)

theorem applyOverrides_clean (ovs : List (Str × RegexpExtractsT)) (ms : List Metric)
    (hms : ∀ m ∈ ms, cleanMetric m) :
    ∀ m ∈ applyOverrides ovs ms, cleanMetric m := by
  induction ovs generalizing ms with
  | nil => rw [applyOverrides]; exact hms
  | cons kv rest ih =>
    rw [applyOverrides]
    refine ih _ ?_
    intro m hm
    rw [List.mem_map] at hm
    obtain ⟨m0, hm0, rfl⟩ := hm
    by_cases hcond : kv.1 = m0.Name ∨ kv.1 = m0.Oid
    · simp only [hcond, if_true, if_pos]
      exact ⟨(hms m0 hm0).1, (hms m0 hm0).2⟩
    · simp only [hcond, if_false]
      exact hms m0 hm0

/-- Claim C3, amended: of the labels in the output, the metric `Name`
and every `Lookup.Labelname` are always sanitized (only `[A-Za-z0-9_]`
characters); an `Index.Labelname` is the raw index label copied
verbatim, and is sanitized only when a lookup rule rewrites it, so it
may contain other characters. -/
theorem claim_C3_amended_names_lookups_sanitized (cfg : ModuleConfig)
    (n2n : Str → Option Node) (m : Module)
    (h : generateConfigModule cfg n2n = Except.ok m) :
    ∀ mt ∈ m.Metrics, mt.Name.all validLabelChar = true ∧
      ∀ lk ∈ mt.Lookups, lk.Labelname.all validLabelChar = true := by
  unfold generateConfigModule at h
  rcases h1 : resolveWalk n2n cfg.Walk with _ | tw
  · rw [h1] at h; exact absurd h (by simp)
  · simp only [h1] at h
    rcases h2 : metricsPhase n2n (minimizeOids tw) [] [] with _ | p
    · simp only [h2] at h; exact absurd h (by simp)
    · obtain ⟨ntw, ms⟩ := p
      simp only [h2] at h
      rcases h3 : applyLookups n2n cfg.Lookups ms ntw with _ | p2
      · simp only [h3] at h; exact absurd h (by simp)
      · obtain ⟨ms2, ntw2⟩ := p2
        simp only [h3, Except.ok.injEq] at h
        subst h
        have hclean : ∀ mt ∈ ms, cleanMetric mt :=
          metricsPhase_clean n2n (minimizeOids tw) [] [] (ntw, ms) h2
            (fun mt hmt => absurd hmt (List.not_mem_nil mt))
        have hclean2 : ∀ mt ∈ ms2, cleanMetric mt :=
          applyLookups_clean n2n cfg.Lookups ms ntw (ms2, ntw2) h3 hclean
        exact applyOverrides_clean cfg.Overrides ms2 hclean2

/-- Tree for the C3 counterexample: a metric node whose raw index label
`bad-idx` contains a character outside `[A-Za-z0-9_]`. -/
def c3Tree : Node :=
  .node ⟨str "1", str "rootNode", [], [], [], [], [], [], [], 0⟩
    (.cons (.node ⟨str "1.1", str "metric1", [], str "INTEGER", str "ACCESS_READONLY",
        [], [], [], [str "bad-idx"], 0⟩ .nil)
      (.cons (.node ⟨str "1.2", str "bad-idx", [], str "INTEGER", str "ACCESS_READONLY",
        [], [], [], [], 0⟩ .nil) .nil))

/-- Counterexample to claim C3 as stated: the produced metric's
`Index.Labelname` is the raw label `bad-idx`, which contains `-`, a
character outside `[A-Za-z0-9_]` — index labelnames are not sanitized. -/
theorem claim_C3_counterexample :
    (generateConfigModule { Walk := [str "metric1"], Lookups := [], Overrides := [] }
        (PrepareTree c3Tree).2).map
      (fun m => m.Metrics.map (fun mt => mt.Indexes.map
        (fun idx => (idx.Labelname, idx.Labelname.all validLabelChar))))
    = Except.ok [[(str "bad-idx", false)]] := by rfl

/-- The metric produced in the C3 witness run. -/
def c3WitnessMetric : Metric :=
  { Name := str "metric1", Oid := str "1.1", Typ := str "gauge", Help := str " - 1.1",
    Indexes := [{ Labelname := str "bad-idx", Typ := str "gauge", FixedSize := 0 }],
    Lookups := [], RegexpExtracts := [] }

/-- The module produced in the C3 witness run. -/
def c3WitnessModule : Module :=
  { Metrics := [c3WitnessMetric], Walk := [str "1.1"] }

/-- Witness for the amended claim C3 on a concrete successful run. -/
theorem claim_C3_witness :
    generateConfigModule { Walk := [str "metric1"], Lookups := [], Overrides := [] }
      (PrepareTree c3Tree).2 = Except.ok c3WitnessModule ∧
    ∀ mt ∈ c3WitnessModule.Metrics, mt.Name.all validLabelChar = true ∧
      ∀ lk ∈ mt.Lookups, lk.Labelname.all validLabelChar = true :=
  ⟨by rfl,
   claim_C3_amended_names_lookups_sanitized
     { Walk := [str "metric1"], Lookups := [], Overrides := [] }
     (PrepareTree c3Tree).2 c3WitnessModule (by rfl)⟩

/-! ## Claim C7: the override step -/

theorem metric_eta_regexp (m : Metric) :
    ({ m with RegexpExtracts := m.RegexpExtracts } : Metric) = m := by
  cases m
  rfl

/-- Claim C7, amended: the override step never adds or removes metrics
and only annotates existing ones: it equals a map over the metric list
(so length, order, and every field except `RegexpExtracts` are
unchanged), where each metric's `RegexpExtracts` becomes the payload of
the LAST override key (in iteration order) matching its name or OID —
with a single matching key, that override's directives verbatim; when
several keys match one metric, earlier matching keys are overwritten. -/
theorem claim_C7_amended_overrides_frame (ovs : List (Str × RegexpExtractsT))
    (ms : List Metric) :
    applyOverrides ovs ms =
      ms.map (fun m => { m with RegexpExtracts := lastMatchRE ovs m }) := by
  induction ovs generalizing ms with
  | nil =>
    rw [applyOverrides]
    have : ms.map (fun m => ({ m with RegexpExtracts := lastMatchRE [] m } : Metric)) =
        ms.map id := by
      apply List.map_congr_left
      intro m _
      show ({ m with RegexpExtracts := lastMatchRE [] m } : Metric) = m
      rw [lastMatchRE]
      exact metric_eta_regexp m
    rw [this, List.map_id]
  | cons kv rest ih =>
    rw [applyOverrides, ih, List.map_map]
    apply List.map_congr_left
    intro m _
    show ({ (if kv.1 = m.Name ∨ kv.1 = m.Oid then
              ({ m with RegexpExtracts := kv.2 } : Metric) else m) with
            RegexpExtracts := lastMatchRE rest
              (if kv.1 = m.Name ∨ kv.1 = m.Oid then
                ({ m with RegexpExtracts := kv.2 } : Metric) else m) } : Metric)
        = { m with RegexpExtracts := lastMatchRE (kv :: rest) m }
    by_cases hm : kv.1 = m.Name ∨ kv.1 = m.Oid
    · cases m
      simp only [hm, if_true, if_pos, lastMatchRE, List.foldl_cons]
    · cases m
      simp only [hm, if_false, lastMatchRE, List.foldl_cons]

/-- Tree for the C7 counterexample: one metric with label `x` and OID
`1.2`, so both the name key `x` and the OID key `1.2` match it. -/
def c7Tree : Node :=
  .node ⟨str "1", str "rootNode", [], [], [], [], [], [], [], 0⟩
    (.cons (.node ⟨str "1.2", str "x", [], str "INTEGER", str "ACCESS_READONLY",
        [], [], [], [], 0⟩ .nil) .nil)

/-- Counterexample to claim C7 as stated: the metric named `x` with OID
`1.2` matches the override key `x` whose directives are
`[("a", "b")]`, yet its final `RegexpExtracts` is `[]` (the payload of
the other matching key `1.2`, applied later in iteration order) — the
matched override's directives are not always the ones retained. -/
theorem claim_C7_counterexample :
    (generateConfigModule
      { Walk := [str "x"], Lookups := [],
        Overrides := [(str "x", [(str "a", str "b")]), (str "1.2", [])] }
      (PrepareTree c7Tree).2).map
        (fun m => m.Metrics.map (fun mt => (mt.Name, mt.Oid, mt.RegexpExtracts)))
    = Except.ok [(str "x", str "1.2", [])] ∧
    ([(str "a", str "b")] : RegexpExtractsT) ≠ [] :=
  ⟨by rfl, by decide⟩

/-! ## Claim C2: the end-to-end scenario -/

/-- The tree exactly as claim C2 states it: the root is the
`ifInOctets` node itself, so the only possible place for the `ifIndex`
node is below it. -/
def c2LiteralTree : Node :=
  .node ⟨str "1.3.6.1.2.1.2.2.1.10", str "ifInOctets", [], str "COUNTER",
      str "ACCESS_READWRITE", [], [], [], [str "ifIndex"], 0⟩
    (.cons (.node ⟨str "1.3.6.1.2.1.2.2.1.1", str "ifIndex", [], str "INTEGER",
      str "ACCESS_READONLY", [], [], [], [], 0⟩ .nil) .nil)

/-- Counterexample to claim C2 as stated: with the nodes exactly root
`1.3.6.1.2.1.2.2.1.10` and `1.3.6.1.2.1.2.2.1.1` (necessarily its
child), walking `ifInOctets` walks the whole subtree and the readable
`ifIndex` node becomes a second metric — the run produces two metrics,
not exactly one. -/
theorem claim_C2_counterexample :
    (generateConfigModule { Walk := [str "ifInOctets"], Lookups := [], Overrides := [] }
        (PrepareTree c2LiteralTree).2).map
      (fun m => m.Metrics.map (fun mt => (mt.Name, mt.Typ)))
    = Except.ok [(str "ifInOctets", str "counter"), (str "ifIndex", str "gauge")] := by rfl

/-- The scenario tree with a neutral parent entry node, under which
`ifIndex` and `ifInOctets` are siblings (so the walk covers only the
`ifInOctets` node). -/
def c2Tree : Node :=
  .node ⟨str "1.3.6.1.2.1.2.2.1", str "ifEntry", [], [], [], [], [], [], [], 0⟩
    (.cons (.node ⟨str "1.3.6.1.2.1.2.2.1.1", str "ifIndex", [], str "INTEGER",
        str "ACCESS_READONLY", [], [], [], [], 0⟩ .nil)
      (.cons (.node ⟨str "1.3.6.1.2.1.2.2.1.10", str "ifInOctets", [], str "COUNTER",
        str "ACCESS_READWRITE", [], [], [], [str "ifIndex"], 0⟩ .nil) .nil))

/-- The single metric the amended scenario produces. -/
def c2ExpectedMetric : Metric :=
  { Name := str "ifInOctets", Oid := str "1.3.6.1.2.1.2.2.1.10", Typ := str "counter",
    Help := str " - 1.3.6.1.2.1.2.2.1.10",
    Indexes := [{ Labelname := str "ifIndex", Typ := str "gauge", FixedSize := 0 }],
    Lookups := [], RegexpExtracts := [] }

/-- Claim C2, amended: with the two scenario nodes as siblings under a
neutral entry node `1.3.6.1.2.1.2.2.1` (instead of `ifIndex` living
inside the walked subtree), `generateConfigModule` on
`walk = ["ifInOctets"]` produces exactly one Metric, named
`ifInOctets`, of type `counter`, with exactly one Index whose labelname
is `ifIndex` and whose type is `gauge`, and `Module.walk` equals
`["1.3.6.1.2.1.2.2.1.10"]`. -/
theorem claim_C2_amended_end_to_end :
    generateConfigModule { Walk := [str "ifInOctets"], Lookups := [], Overrides := [] }
      (PrepareTree c2Tree).2
    = Except.ok { Metrics := [c2ExpectedMetric], Walk := [str "1.3.6.1.2.1.2.2.1.10"] } ∧
    c2ExpectedMetric.Name = str "ifInOctets" ∧
    c2ExpectedMetric.Typ = str "counter" ∧
    c2ExpectedMetric.Indexes =
      [{ Labelname := str "ifIndex", Typ := str "gauge", FixedSize := 0 }] :=
  ⟨by rfl, rfl, rfl, rfl⟩

/-! ## Claim C6: augmentation copies already-corrected indexes -/

def NodeList.toList : NodeList → List Node
  | .nil => []
  | .cons c cs => c :: cs.toList

/-- Overwrite the `Indexes` of every node of a child list (the net
effect of the augmentation child loop). -/
def NodeList.setIndexesAll (v : List Str) : NodeList → NodeList
  | .nil => .nil
  | .cons (.node d ccs) cs => .cons (.node { d with Indexes := v } ccs) (cs.setIndexesAll v)

/-- Overwrite the `Indexes` of the first `k` nodes of a child list (the
loop invariant of the augmentation child loop). -/
def NodeList.setIndexesFirst (v : List Str) : Nat → NodeList → NodeList
  | 0, cs => cs
  | _ + 1, .nil => .nil
  | k + 1, .cons (.node d ccs) cs => .cons (.node { d with Indexes := v } ccs) (cs.setIndexesFirst v k)

theorem NodeList.get?_mem_toList : ∀ (cs : NodeList) (i : Nat) (c : Node),
    NodeList.get? cs i = some c → c ∈ cs.toList
  | .nil, i, c => by
    intro h
    rw [NodeList.get?] at h
    exact absurd h (by simp)
  | .cons c0 rest, i, c => by
    intro h
    cases i with
    | zero =>
      rw [NodeList.get?] at h
      rw [Option.some.injEq] at h
      subst h
      exact List.mem_cons_self _ _
    | succ j =>
      rw [NodeList.get?] at h
      exact List.mem_cons_of_mem c0 (NodeList.get?_mem_toList rest j c h)

theorem mapNodes_toList (f : NodeData → NodeData) : ∀ (cs : NodeList),
    (mapNodes f cs).toList = cs.toList.map (mapNode f)
  | .nil => rfl
  | .cons c rest => by
    rw [mapNodes, NodeList.toList, NodeList.toList, List.map_cons, mapNodes_toList f rest]

theorem mapNode_children_nil (f : NodeData → NodeData) (c : Node)
    (h : c.children = NodeList.nil) : (mapNode f c).children = NodeList.nil := by
  cases c with
  | node d cs =>
    rw [Node.children] at h
    subst h
    rfl

theorem mapNode_data (f : NodeData → NodeData) (c : Node) :
    (mapNode f c).data = f c.data := by
  cases c with
  | node d cs => rfl

theorem NodeList.get?_mapNodes (f : NodeData → NodeData) : ∀ (cs : NodeList) (i : Nat),
    NodeList.get? (mapNodes f cs) i = (NodeList.get? cs i).map (mapNode f)
  | .nil, i => by cases i <;> rfl
  | .cons c rest, i => by
    cases i with
    | zero => rfl
    | succ j => rw [mapNodes, NodeList.get?, NodeList.get?, NodeList.get?_mapNodes f rest j]

theorem NodeList.get?_setIndexesAll (v : List Str) : ∀ (cs : NodeList) (i : Nat),
    NodeList.get? (NodeList.setIndexesAll v cs) i =
      (NodeList.get? cs i).map (fun c =>
        Node.node { c.data with Indexes := v } c.children)
  | .nil, i => by cases i <;> rfl
  | .cons (.node d ccs) rest, i => by
    cases i with
    | zero => rfl
    | succ j =>
      rw [NodeList.setIndexesAll, NodeList.get?, NodeList.get?,
        NodeList.get?_setIndexesAll v rest j]

theorem setIndexesAll_children_nil (v : List Str) : ∀ (cs : NodeList),
    (∀ c ∈ cs.toList, c.children = NodeList.nil) →
    ∀ c ∈ (NodeList.setIndexesAll v cs).toList, c.children = NodeList.nil
  | .nil => by
    intro _ c hc
    exact absurd hc (List.not_mem_nil c)
  | .cons (.node d ccs) rest => by
    intro h c hc
    rw [NodeList.setIndexesAll, NodeList.toList] at hc
    rcases List.mem_cons.mp hc with rfl | hcr
    · have := h _ (List.mem_cons_self _ _)
      rw [Node.children] at this ⊢
      exact this
    · exact setIndexesAll_children_nil v rest
        (fun c2 hc2 => h c2 (List.mem_cons_of_mem _ hc2)) c hcr

/-- Field preservation: pass 1 only rewrites the description. -/
theorem trimDescription_fields (d : NodeData) :
    (trimDescription d).Oid = d.Oid ∧ (trimDescription d).Label = d.Label ∧
    (trimDescription d).Augments = d.Augments ∧ (trimDescription d).Indexes = d.Indexes :=
  ⟨rfl, rfl, rfl, rfl⟩

/-- Field preservation: pass 2 only rewrites the index list. -/
theorem fixSelfIndexes_fields (d : NodeData) :
    (fixSelfIndexes d).Oid = d.Oid ∧ (fixSelfIndexes d).Label = d.Label ∧
    (fixSelfIndexes d).Augments = d.Augments :=
  ⟨rfl, rfl, rfl⟩

/-- Field preservation: pass 5 only rewrites the type. -/
theorem reclassifyHint_Indexes (d : NodeData) :
    (reclassifyHint d).Indexes = d.Indexes := by
  unfold reclassifyHint
  by_cases h1 : d.Hint = str "1x:" <;>
    simp only [h1, if_true, if_false, Bool.false_eq_true] <;>
    split <;> split <;> rfl

/-- The combined data rewrite of passes 1 and 2. -/
theorem fixtrim_Augments (d : NodeData) :
    (fixSelfIndexes (trimDescription d)).Augments = d.Augments := rfl

theorem fixtrim_Indexes_empty (d : NodeData) (h : d.Indexes = []) :
    (fixSelfIndexes (trimDescription d)).Indexes = [] := by
  unfold fixSelfIndexes trimDescription
  simp [h]

/-- Pass 2 turns node A's raw `["INTEGER"]` into `[label]`. -/
theorem fixtrim_Indexes_selfA (d : NodeData) (hl : d.Label = str "A")
    (hi : d.Indexes = [str "INTEGER"]) :
    (fixSelfIndexes (trimDescription d)).Indexes = [str "A"] := by
  unfold fixSelfIndexes trimDescription
  simp [hi, hl]

/-- The tree shape of the augmentation scenario: a root with children
`A` (the augmented node) and `B` (the augmenting node, with children
`cs`). -/
def mkC6Tree (dR dA dB : NodeData) (cs : NodeList) : Node :=
  .node dR (.cons (.node dA .nil) (.cons (.node dB cs) .nil))

theorem mkC6Tree_positions (dR dA dB : NodeData) (cs : NodeList) :
    (mkC6Tree dR dA dB cs).preorderPositions
    = [] :: [0] :: [1] :: (NodeList.preorderPositions 0 cs).map (fun p => 1 :: p) := by
  unfold mkC6Tree
  rw [Node.preorderPositions]
  rw [NodeList.preorderPositions, NodeList.preorderPositions, NodeList.preorderPositions]
  rw [Node.preorderPositions, Node.preorderPositions]
  rw [NodeList.preorderPositions]
  simp

theorem childless_positions_get : ∀ (cs : NodeList) (i : Nat),
    (∀ c ∈ cs.toList, c.children = NodeList.nil) →
    ∀ p ∈ NodeList.preorderPositions i cs,
      ∃ j c, p = [j] ∧ i ≤ j ∧ NodeList.get? cs (j - i) = some c ∧ c ∈ cs.toList
  | .nil, i => by
    intro _ p hp
    rw [NodeList.preorderPositions] at hp
    exact absurd hp (List.not_mem_nil p)
  | .cons (.node d ccs) rest, i => by
    intro h p hp
    have hccs : ccs = NodeList.nil := by
      have := h _ (List.mem_cons_self _ _)
      rw [Node.children] at this
      exact this
    subst hccs
    rw [NodeList.preorderPositions, Node.preorderPositions, NodeList.preorderPositions] at hp
    rcases List.mem_append.mp hp with h1 | h2
    · rw [List.map_cons, List.map_nil, List.mem_singleton] at h1
      subst h1
      exact ⟨i, Node.node d NodeList.nil, rfl, Nat.le_refl i,
        by rw [Nat.sub_self]; rfl, List.mem_cons_self _ _⟩
    · obtain ⟨j, c, hpj, hij, hget, hmem⟩ :=
        childless_positions_get rest (i + 1)
          (fun c hc => h c (List.mem_cons_of_mem _ hc)) p h2
      refine ⟨j, c, hpj, Nat.le_trans (Nat.le_succ i) hij, ?_, List.mem_cons_of_mem _ hmem⟩
      have harith : j - i = (j - (i + 1)) + 1 := by omega
      rw [harith, NodeList.get?]
      exact hget

theorem buildFold_preserve (tree : Node) : ∀ (ps : List Pos) (m : Str → Option Pos),
    (∀ p ∈ ps, ∀ n, tree.get? p = some n →
      n.data.Label ≠ str "A" ∧ n.data.Oid ≠ str "A") →
    (ps.foldl (fun m p =>
      match tree.get? p with
      | none => m
      | some n => insertName (insertName m n.data.Oid p) n.data.Label p) m) (str "A")
    = m (str "A") := by
  intro ps
  induction ps with
  | nil => intro m _; rfl
  | cons p rest ih =>
    intro m h
    rw [List.foldl_cons]
    rcases hg : tree.get? p with _ | n
    · simp only [hg]
      exact ih m (fun p2 hp2 => h p2 (List.mem_cons_of_mem p hp2))
    · simp only [hg]
      rw [ih _ (fun p2 hp2 => h p2 (List.mem_cons_of_mem p hp2))]
      obtain ⟨hl, ho⟩ := h p (List.mem_cons_self p rest) n hg
      unfold insertName
      rw [if_neg (Ne.symm hl), if_neg (Ne.symm ho)]

theorem mkC6Tree_nameToPos_A (dR dA dB : NodeData) (cs : NodeList)
    (hAlab : dA.Label = str "A")
    (hBlab : dB.Label ≠ str "A") (hBoid : dB.Oid ≠ str "A")
    (hcs : ∀ c ∈ cs.toList, c.children = NodeList.nil ∧
      c.data.Label ≠ str "A" ∧ c.data.Oid ≠ str "A") :
    buildNameToPos (mkC6Tree dR dA dB cs) (str "A") = some [0] := by
  unfold buildNameToPos
  rw [mkC6Tree_positions]
  rw [List.foldl_cons, List.foldl_cons, List.foldl_cons]
  rw [buildFold_preserve]
  · show (insertName (insertName
        (insertName (insertName
          (insertName (insertName (fun _ => none) dR.Oid []) dR.Label [])
          dA.Oid [0]) dA.Label [0])
        dB.Oid [1]) dB.Label [1]) (str "A") = some [0]
    unfold insertName
    rw [if_neg (Ne.symm hBlab), if_neg (Ne.symm hBoid)]
    rw [if_pos (by rw [hAlab])]
  · intro p hp n hn
    rw [List.mem_map] at hp
    obtain ⟨p0, hp0, rfl⟩ := hp
    obtain ⟨j, c, rfl, _, hget, hmem⟩ :=
      childless_positions_get cs 0 (fun c hc => (hcs c hc).1) p0 hp0
    rw [Nat.sub_zero] at hget
    have hn2 : (mkC6Tree dR dA dB cs).get? (1 :: [j]) = some c := by
      show (Node.node dB cs).get? [j] = some c
      simp only [Node.get?, Node.children, hget]
    rw [hn2] at hn
    rw [Option.some.injEq] at hn
    cases hn
    exact ⟨(hcs _ hmem).2.1, (hcs _ hmem).2.2⟩

theorem modify_setIndexesFirst (v : List Str) : ∀ (k : Nat) (cs : NodeList),
    k < cs.length →
    NodeList.modify (NodeList.setIndexesFirst v k cs) k (fun c => Node.setIndexes c [] v)
    = NodeList.setIndexesFirst v (k + 1) cs
  | 0, .nil => by
    intro h
    rw [NodeList.length] at h
    omega
  | 0, .cons (.node d ccs) rest => by
    intro _
    rw [NodeList.setIndexesFirst, NodeList.modify,
      NodeList.setIndexesFirst, NodeList.setIndexesFirst]
    rfl
  | k + 1, .nil => by
    intro h
    rw [NodeList.length] at h
    omega
  | k + 1, .cons (.node d ccs) rest => by
    intro h
    rw [NodeList.setIndexesFirst, NodeList.modify, NodeList.setIndexesFirst]
    rw [modify_setIndexesFirst v k rest (by rw [NodeList.length] at h; omega)]

theorem setIndexesFirst_length (v : List Str) : ∀ (cs : NodeList),
    NodeList.setIndexesFirst v cs.length cs = NodeList.setIndexesAll v cs
  | .nil => by rw [NodeList.length]; rfl
  | .cons (.node d ccs) rest => by
    rw [NodeList.length, NodeList.setIndexesFirst, NodeList.setIndexesAll,
      setIndexesFirst_length v rest]

theorem augmentWrite_shape (dR2 dA2 dB2 : NodeData) (csk : NodeList) (i : Nat) :
    augmentWrite [0] [1] (mkC6Tree dR2 dA2 dB2 csk) i
    = mkC6Tree dR2 dA2 dB2
        (NodeList.modify csk i (fun c => Node.setIndexes c [] dA2.Indexes)) := rfl

theorem augLoop (dR2 dA2 dB2 : NodeData) (cs2 : NodeList) : ∀ (k : Nat),
    k ≤ cs2.length →
    (List.range k).foldl (augmentWrite [0] [1]) (mkC6Tree dR2 dA2 dB2 cs2)
    = mkC6Tree dR2 dA2 dB2 (NodeList.setIndexesFirst dA2.Indexes k cs2) := by
  intro k
  induction k with
  | zero => intro _; rfl
  | succ k ih =>
    intro hk
    rw [List.range_succ, List.foldl_append, ih (Nat.le_of_succ_le hk)]
    rw [List.foldl_cons, List.foldl_nil, augmentWrite_shape]
    rw [modify_setIndexesFirst dA2.Indexes k cs2 hk]

theorem augmentApply_shape (dR2 dA2 dB2 : NodeData) (cs2 : NodeList) :
    augmentApply [0] [1] cs2.length (mkC6Tree dR2 dA2 dB2 cs2)
    = mkC6Tree dR2 dA2 { dB2 with Indexes := dA2.Indexes }
        (NodeList.setIndexesAll dA2.Indexes cs2) := by
  unfold augmentApply
  rw [augLoop dR2 dA2 dB2 cs2 cs2.length (Nat.le_refl _)]
  rw [setIndexesFirst_length]
  rfl

theorem augmentStep_shape (n2p : Str → Option Pos) (dR2 dA2 dB2 : NodeData)
    (cs2 : NodeList)
    (hBaug : dB2.Augments = str "A")
    (hq : n2p (str "A") = some [0]) :
    augmentStep n2p (mkC6Tree dR2 dA2 dB2 cs2) [1]
    = mkC6Tree dR2 dA2 { dB2 with Indexes := dA2.Indexes }
        (NodeList.setIndexesAll dA2.Indexes cs2) := by
  have h0 : augmentStep n2p (mkC6Tree dR2 dA2 dB2 cs2) [1]
      = if dB2.Augments = [] then mkC6Tree dR2 dA2 dB2 cs2
        else match n2p dB2.Augments with
          | none => mkC6Tree dR2 dA2 dB2 cs2
          | some q => augmentApply q [1] cs2.length (mkC6Tree dR2 dA2 dB2 cs2) := rfl
  rw [h0]
  rw [if_neg (show ¬(dB2.Augments = ([] : Str)) by rw [hBaug]; decide)]
  conv_lhs => rw [hBaug, hq]
  exact augmentApply_shape dR2 dA2 dB2 cs2

theorem augmentStep_id (n2p : Str → Option Pos) (t : Node) (p : Pos)
    (h : ∀ n, t.get? p = some n → n.data.Augments = []) :
    augmentStep n2p t p = t := by
  unfold augmentStep
  rcases hg : t.get? p with _ | n
  · simp only [hg]
  · simp only [hg]
    rw [if_pos (h n hg)]

theorem foldl_augmentStep_id (n2p : Str → Option Pos) (t : Node) : ∀ (ps : List Pos),
    (∀ p ∈ ps, ∀ n, t.get? p = some n → n.data.Augments = []) →
    ps.foldl (augmentStep n2p) t = t := by
  intro ps
  induction ps with
  | nil => intro _; rfl
  | cons p rest ih =>
    intro h
    rw [List.foldl_cons, augmentStep_id n2p t p (h p (List.mem_cons_self p rest))]
    exact ih (fun p2 hp2 => h p2 (List.mem_cons_of_mem p hp2))

theorem mkC6Tree_get_B (dR dA dB : NodeData) (cs : NodeList) :
    (mkC6Tree dR dA dB cs).get? [1] = some (Node.node dB cs) := rfl

theorem mkC6Tree_get_child (dR dA dB : NodeData) (cs : NodeList) (i : Nat) :
    (mkC6Tree dR dA dB cs).get? [1, i] = NodeList.get? cs i := by
  show (match NodeList.get? cs i with
    | none => none
    | some c => c.get? []) = NodeList.get? cs i
  rcases h : NodeList.get? cs i with _ | c
  · rfl
  · rfl

/-- Pass 3 on the scenario tree: the root and `A` have no `augments`;
the visit of `B` copies `A`'s current indexes onto `B` and all its
children; the childless children have no `augments` of their own and
are skipped. -/
theorem augmentPass_shape (n2p : Str → Option Pos) (dR2 dA2 dB2 : NodeData)
    (cs2 : NodeList)
    (hR2aug : dR2.Augments = []) (hA2aug : dA2.Augments = [])
    (hB2aug : dB2.Augments = str "A")
    (hq : n2p (str "A") = some [0])
    (hcs2nil : ∀ c ∈ cs2.toList, c.children = NodeList.nil)
    (hcs2aug : ∀ c ∈ cs2.toList, c.data.Augments = []) :
    augmentPass n2p (mkC6Tree dR2 dA2 dB2 cs2)
    = mkC6Tree dR2 dA2 { dB2 with Indexes := dA2.Indexes }
        (NodeList.setIndexesAll dA2.Indexes cs2) := by
  unfold augmentPass
  rw [mkC6Tree_positions]
  rw [List.foldl_cons]
  rw [augmentStep_id n2p _ [] (by
    intro n hn
    have h2 : (mkC6Tree dR2 dA2 dB2 cs2).get? [] = some (mkC6Tree dR2 dA2 dB2 cs2) := rfl
    rw [h2, Option.some.injEq] at hn
    rw [← hn]
    exact hR2aug)]
  rw [List.foldl_cons]
  rw [augmentStep_id n2p _ [0] (by
    intro n hn
    have h2 : (mkC6Tree dR2 dA2 dB2 cs2).get? [0] = some (Node.node dA2 NodeList.nil) := rfl
    rw [h2, Option.some.injEq] at hn
    rw [← hn]
    exact hA2aug)]
  rw [List.foldl_cons]
  rw [augmentStep_shape n2p dR2 dA2 dB2 cs2 hB2aug hq]
  rw [foldl_augmentStep_id]
  intro p hp n hn
  rw [List.mem_map] at hp
  obtain ⟨p0, hp0, rfl⟩ := hp
  obtain ⟨j, c, rfl, _, hget, hmem⟩ := childless_positions_get cs2 0 hcs2nil p0 hp0
  rw [Nat.sub_zero] at hget
  rw [show (1 : Nat) :: [j] = [1, j] from rfl, mkC6Tree_get_child] at hn
  rw [NodeList.get?_setIndexesAll, hget] at hn
  simp only [Option.map] at hn
  rw [Option.some.injEq] at hn
  rw [← hn, Node.data]
  exact hcs2aug c hmem

theorem tablePassChildren_nil_eq (v : List Str) :
    tablePassChildren v NodeList.nil = NodeList.nil := rfl

theorem tablePassChildren_childless (v : List Str) : ∀ (cs : NodeList),
    (∀ c ∈ cs.toList, c.children = NodeList.nil) → v ≠ [] →
    tablePassChildren v cs = NodeList.setIndexesAll v cs
  | .nil => fun _ _ => rfl
  | .cons (.node d ccs) rest => by
    intro h hv
    have hccs : ccs = NodeList.nil := by
      have := h _ (List.mem_cons_self _ _)
      rw [Node.children] at this
      exact this
    subst hccs
    rw [tablePassChildren, NodeList.setIndexesAll]
    simp only [hv, if_neg, if_false]
    rw [tablePassChildren_nil_eq,
      tablePassChildren_childless v rest (fun c hc => h c (List.mem_cons_of_mem _ hc)) hv]

/-- Pass 4 on the scenario tree: the root has no indexes so `A` and `B`
keep theirs; `B`'s non-empty indexes overwrite all its children. -/
theorem tablePass_shape (dR3 dA3 dB3 : NodeData) (cs3 : NodeList) (v : List Str)
    (hv : dB3.Indexes = v) (hvne : v ≠ [])
    (hR3 : dR3.Indexes = [])
    (hcs3 : ∀ c ∈ cs3.toList, c.children = NodeList.nil) :
    tablePassNode (mkC6Tree dR3 dA3 dB3 cs3)
    = mkC6Tree dR3 dA3 dB3 (NodeList.setIndexesAll v cs3) := by
  have h0 : tablePassNode (mkC6Tree dR3 dA3 dB3 cs3)
      = Node.node dR3 (tablePassChildren dR3.Indexes
          (.cons (.node dA3 .nil) (.cons (.node dB3 cs3) .nil))) := rfl
  rw [h0, hR3]
  have h1 : tablePassChildren ([] : List Str)
        (.cons (.node dA3 .nil) (.cons (.node dB3 cs3) .nil))
      = .cons (.node dA3 .nil)
          (.cons (.node dB3 (tablePassChildren dB3.Indexes cs3)) .nil) := rfl
  rw [h1, hv, tablePassChildren_childless v cs3 hcs3 hvne]
  rfl

theorem mapNode_mkC6Tree (f : NodeData → NodeData) (a b c : NodeData) (cs : NodeList) :
    mapNode f (mkC6Tree a b c cs) = mkC6Tree (f a) (f b) (f c) (mapNodes f cs) := rfl

/-- Claim C6, amended: in a tree of the scenario shape — a root with
empty indexes and no augments, a childless node `A` labelled `A` with
raw indexes `["INTEGER"]` and no augments, and a node `B` with
`augments = "A"` whose direct children are childless, have no augments
of their own, and (like `B`) are not named `A` — after `PrepareTree`
completes, `B`'s indexes equal `["A"]` (the self-index correction
applied to `A`) and every direct child of `B` also has indexes
`["A"]`.  The counterexample shows the unrestricted claim fails: an
ancestor with non-empty indexes overwrites `B` again in the
table-propagation pass. -/
theorem claim_C6_amended_augmentation (dR dA dB : NodeData) (cs : NodeList)
    (hRidx : dR.Indexes = []) (hRaug : dR.Augments = [])
    (hAlab : dA.Label = str "A") (hAidx : dA.Indexes = [str "INTEGER"])
    (hAaug : dA.Augments = [])
    (hBaug : dB.Augments = str "A") (hBlab : dB.Label ≠ str "A")
    (hBoid : dB.Oid ≠ str "A")
    (hcs : ∀ c ∈ cs.toList, c.children = NodeList.nil ∧ c.data.Augments = [] ∧
      c.data.Label ≠ str "A" ∧ c.data.Oid ≠ str "A") :
    (((PrepareTree (mkC6Tree dR dA dB cs)).1.get? [1]).map (fun n => n.data.Indexes)
      = some [str "A"]) ∧
    ∀ i : Nat, ∀ c : Node,
      (PrepareTree (mkC6Tree dR dA dB cs)).1.get? [1, i] = some c →
      c.data.Indexes = [str "A"] := by
  have hpre : (PrepareTree (mkC6Tree dR dA dB cs)).1
      = mapNode reclassifyHint (tablePassNode (augmentPass
          (buildNameToPos (mkC6Tree dR dA dB cs))
          (mapNode fixSelfIndexes (mapNode trimDescription (mkC6Tree dR dA dB cs))))) := rfl
  have hT2 : mapNode fixSelfIndexes (mapNode trimDescription (mkC6Tree dR dA dB cs))
      = mkC6Tree (fixSelfIndexes (trimDescription dR)) (fixSelfIndexes (trimDescription dA))
          (fixSelfIndexes (trimDescription dB))
          (mapNodes fixSelfIndexes (mapNodes trimDescription cs)) := rfl
  have hcs2nil : ∀ c ∈ (mapNodes fixSelfIndexes (mapNodes trimDescription cs)).toList,
      c.children = NodeList.nil := by
    intro c hc
    rw [mapNodes_toList, List.mem_map] at hc
    obtain ⟨c1, hc1, rfl⟩ := hc
    rw [mapNodes_toList, List.mem_map] at hc1
    obtain ⟨c0, hc0, rfl⟩ := hc1
    exact mapNode_children_nil _ _ (mapNode_children_nil _ _ (hcs c0 hc0).1)
  have hcs2aug : ∀ c ∈ (mapNodes fixSelfIndexes (mapNodes trimDescription cs)).toList,
      c.data.Augments = [] := by
    intro c hc
    rw [mapNodes_toList, List.mem_map] at hc
    obtain ⟨c1, hc1, rfl⟩ := hc
    rw [mapNodes_toList, List.mem_map] at hc1
    obtain ⟨c0, hc0, rfl⟩ := hc1
    rw [mapNode_data, mapNode_data]
    exact (fixtrim_Augments c0.data).trans (hcs c0 hc0).2.1
  have hq := mkC6Tree_nameToPos_A dR dA dB cs hAlab hBlab hBoid
    (fun c hc => ⟨(hcs c hc).1, (hcs c hc).2.2.1, (hcs c hc).2.2.2⟩)
  have hA2idx : (fixSelfIndexes (trimDescription dA)).Indexes = [str "A"] :=
    fixtrim_Indexes_selfA dA hAlab hAidx
  have hR2idx : (fixSelfIndexes (trimDescription dR)).Indexes = [] :=
    fixtrim_Indexes_empty dR hRidx
  have hP3 := augmentPass_shape (buildNameToPos (mkC6Tree dR dA dB cs))
    (fixSelfIndexes (trimDescription dR)) (fixSelfIndexes (trimDescription dA))
    (fixSelfIndexes (trimDescription dB))
    (mapNodes fixSelfIndexes (mapNodes trimDescription cs))
    ((fixtrim_Augments dR).trans hRaug) ((fixtrim_Augments dA).trans hAaug)
    ((fixtrim_Augments dB).trans hBaug) hq hcs2nil hcs2aug
  have hcs3nil := setIndexesAll_children_nil (fixSelfIndexes (trimDescription dA)).Indexes
    (mapNodes fixSelfIndexes (mapNodes trimDescription cs)) hcs2nil
  have hP4 := tablePass_shape (fixSelfIndexes (trimDescription dR))
    (fixSelfIndexes (trimDescription dA))
    { fixSelfIndexes (trimDescription dB) with
        Indexes := (fixSelfIndexes (trimDescription dA)).Indexes }
    (NodeList.setIndexesAll (fixSelfIndexes (trimDescription dA)).Indexes
      (mapNodes fixSelfIndexes (mapNodes trimDescription cs)))
    [str "A"] hA2idx (by decide) hR2idx hcs3nil
  rw [hpre, hT2, hP3, hP4, mapNode_mkC6Tree]
  constructor
  · rw [mkC6Tree_get_B]
    simp only [Option.map, Node.data]
    rw [reclassifyHint_Indexes]
    exact congrArg some hA2idx
  · intro i c h
    rw [mkC6Tree_get_child, NodeList.get?_mapNodes] at h
    rw [NodeList.get?_setIndexesAll] at h
    rcases h5 : NodeList.get?
        (NodeList.setIndexesAll (fixSelfIndexes (trimDescription dA)).Indexes
          (mapNodes fixSelfIndexes (mapNodes trimDescription cs))) i with _ | c3
    · rw [h5] at h
      exact absurd h (by simp)
    · rw [h5] at h
      simp only [Option.map] at h
      rw [Option.some.injEq] at h
      rw [← h, mapNode_data, reclassifyHint_Indexes]
      rfl

/-- Counterexample tree for claim C6: root with non-empty raw indexes
`["r"]`, node `A` with label `A` and raw indexes `["INTEGER"]`, node
`B` with `augments = "A"`. -/
def c6ceTree : Node :=
  mkC6Tree ⟨str "1", str "rootNode", [], [], [], [], [], [], [str "r"], 0⟩
    ⟨str "1.1", str "A", [], [], [], [], [], [], [str "INTEGER"], 0⟩
    ⟨str "1.2", str "B", str "A", [], [], [], [], [], [], 0⟩ .nil

/-- Counterexample to claim C6 as stated: the augmentation pass does
set `B`'s indexes to `["A"]`, but the subsequent table-propagation pass
copies the root's non-empty indexes `["r"]` back over `B`, so after
`PrepareTree` completes `B`'s indexes are `["r"]`, not `["A"]`. -/
theorem claim_C6_counterexample :
    ((PrepareTree c6ceTree).1.get? [1]).map (fun n => n.data.Indexes)
      = some [str "r"] ∧ str "r" ≠ str "A" :=
  ⟨by rfl, by decide⟩

def c6wR : NodeData := ⟨str "1", str "rootNode", [], [], [], [], [], [], [], 0⟩

def c6wA : NodeData := ⟨str "1.1", str "A", [], [], [], [], [], [], [str "INTEGER"], 0⟩

def c6wB : NodeData := ⟨str "1.2", str "B", str "A", [], [], [], [], [], [], 0⟩

def c6wCs : NodeList :=
  .cons (.node ⟨str "1.2.1", str "childOne", [], [], [], [], [], [], [], 0⟩ .nil)
    (.cons (.node ⟨str "1.2.2", str "childTwo", [], [], [], [], [], [], [str "z"], 0⟩ .nil) .nil)

/-- Witness for the amended claim C6 at a concrete tree with two
children under `B`. -/
theorem claim_C6_witness :
    (∀ c ∈ c6wCs.toList, c.children = NodeList.nil ∧ c.data.Augments = [] ∧
      c.data.Label ≠ str "A" ∧ c.data.Oid ≠ str "A") ∧
    (((PrepareTree (mkC6Tree c6wR c6wA c6wB c6wCs)).1.get? [1]).map
      (fun n => n.data.Indexes) = some [str "A"]) ∧
    ∀ i : Nat, ∀ c : Node,
      (PrepareTree (mkC6Tree c6wR c6wA c6wB c6wCs)).1.get? [1, i] = some c →
      c.data.Indexes = [str "A"] :=
  ⟨by decide,
   (claim_C6_amended_augmentation c6wR c6wA c6wB c6wCs rfl rfl rfl rfl rfl rfl
     (by decide) (by decide) (by decide)).1,
   (claim_C6_amended_augmentation c6wR c6wA c6wB c6wCs rfl rfl rfl rfl rfl rfl
     (by decide) (by decide) (by decide)).2⟩

end SnmpGen
